import Mathlib

/-!
Verification development for the hoatzin JSON-file data-modeling library
(src/src/index.ts). We shallowly embed the runtime values the library
manipulates (parsed JSON trees plus the JavaScript-specific states that the
library's own mutations can create: undefined reads, array holes left by
delete, and named properties attached to arrays), the schema descriptors,
and the three core algorithms: the reconciler (checkTypeMatching and
cleanUp), the locked-field guard (changeLockedBack), and the diff engine
(createLogArray and formatLog), together with the CRUD facade (save, find,
findOne, create, findOneAndUpdate) over an abstract id-to-document store.

Modeling conventions, used throughout and noted again at the definitions
they concern:
- JavaScript numbers are modeled as integers; no claim involves fractional
  or non-finite numbers.
- In-place mutation is modeled by functional update: a statement of the
  form obj[key] = f(obj[key]) becomes setProp obj key (f (getProp obj key)).
- Equality of JSON.stringify outputs is modeled as equality of JSON normal
  forms (jsonNorm), i.e. of the trees after dropping what serialization
  drops (undefined-valued fields, named properties of arrays) and mapping
  holes and undefined array elements to null.
- Reading a property of null or undefined throws in JavaScript; the guard,
  which can reach such reads, is embedded in an error monad with explicit
  checks, while the reconciler and diff engine, whose reads are all on
  values checked to be objects or arrays, use the total access functions.
-/

/-! ## Runtime values

A JavaScript value as the library sees it. vArr carries both the element
list (with explicit holes, since the reconciler's delete of an array index
leaves a hole without shortening the array) and the named non-index
properties that the reconciler's object branch can attach to an array.
-/

mutual
inductive Value where
  | vNull : Value
  | vUndef : Value
  | vBool (b : Bool) : Value
  | vNum (n : Int) : Value
  | vStr (s : String) : Value
  | vArr (es : Elems) (ps : Fields) : Value
  | vObj (fs : Fields) : Value
inductive Elems where
  | nil : Elems
  | hole (tl : Elems) : Elems
  | cons (v : Value) (tl : Elems) : Elems
inductive Fields where
  | nil : Fields
  | cons (k : String) (v : Value) (tl : Fields) : Fields
end

deriving instance DecidableEq for Value
deriving instance DecidableEq for Elems
deriving instance DecidableEq for Fields

/-- Single-motive induction over Elems (the generated recursor of the
mutual family has several motives, which the induction tactic rejects). -/
theorem elemsInd (P : Elems → Prop) (h1 : P .nil) (h2 : ∀ tl, P tl → P (.hole tl))
    (h3 : ∀ v tl, P tl → P (.cons v tl)) : ∀ es, P es
  | .nil => h1
  | .hole tl => h2 tl (elemsInd P h1 h2 h3 tl)
  | .cons v tl => h3 v tl (elemsInd P h1 h2 h3 tl)

/-- Single-motive induction over Fields. -/
theorem fieldsInd (P : Fields → Prop) (h1 : P .nil)
    (h2 : ∀ k v tl, P tl → P (.cons k v tl)) : ∀ fs, P fs
  | .nil => h1
  | .cons k v tl => h2 k v tl (fieldsInd P h1 h2 tl)

def digitVal? (c : Char) : Option Nat :=
  if '0' ≤ c ∧ c ≤ '9' then some (c.toNat - '0'.toNat) else none

def dchar (d : Nat) : Char := Char.ofNat (48 + d)

/-- Little fueled helper producing the decimal digits of n, most
significant first. -/
def ndigsF : Nat → Nat → List Char
  | 0, _ => []
  | f+1, n => if n < 10 then [dchar n] else ndigsF f (n / 10) ++ [dchar (n % 10)]

/-- The decimal spelling of a natural number, as JavaScript renders an
array index. -/
def ntos (n : Nat) : String := String.mk (ndigsF (n + 1) n)

def dvStep (acc : Option Nat) (c : Char) : Option Nat :=
  match acc, digitVal? c with
  | some a, some d => some (a * 10 + d)
  | _, _ => none

def digitsVal? : List Char → Option Nat
  | [] => none
  | c :: tl => (c :: tl).foldl dvStep (some 0)

/-! ## Field and element list operations -/

/-- Lookup of a key, first occurrence. -/
def fieldsGet : Fields → String → Option Value
  | .nil, _ => none
  | .cons k v tl, q => if k = q then some v else fieldsGet tl q

/-- Write a key: replace the value of the existing entry in place, else
append at the end (JavaScript property insertion order). -/
def fieldsSet : Fields → String → Value → Fields
  | .nil, q, w => .cons q w .nil
  | .cons k v tl, q, w => if k = q then .cons k w tl else .cons k v (fieldsSet tl q w)

/-- Delete a key. -/
def fieldsDel : Fields → String → Fields
  | .nil, _ => .nil
  | .cons k v tl, q => if k = q then fieldsDel tl q else .cons k v (fieldsDel tl q)

/-- Keys in order. -/
def fieldsKeys : Fields → List String
  | .nil => []
  | .cons k _ tl => k :: fieldsKeys tl

def fieldsHas (fs : Fields) (q : String) : Bool :=
  (fieldsGet fs q).isSome

/-- Values in order (Object.values of a plain object). -/
def fieldsVals : Fields → List Value
  | .nil => []
  | .cons _ v tl => v :: fieldsVals tl

def elen : Elems → Nat
  | .nil => 0
  | .hole tl => 1 + elen tl
  | .cons _ tl => 1 + elen tl

/-- Element at an index: none when the index is a hole or out of range
(both read as undefined in JavaScript). -/
def eget : Elems → Nat → Option Value
  | .nil, _ => none
  | .hole _, 0 => none
  | .cons v _, 0 => some v
  | .hole tl, n+1 => eget tl n
  | .cons _ tl, n+1 => eget tl n

/-- Write an index; writing at or beyond the length pads with holes and
extends the array, as assignment to a fresh index does in JavaScript. -/
def eset : Elems → Nat → Value → Elems
  | .nil, 0, w => .cons w .nil
  | .nil, n+1, w => .hole (eset .nil n w)
  | .hole tl, 0, w => .cons w tl
  | .cons _ tl, 0, w => .cons w tl
  | .hole tl, n+1, w => .hole (eset tl n w)
  | .cons v tl, n+1, w => .cons v (eset tl n w)

/-- Delete an index: the slot becomes a hole, the length is unchanged. -/
def edel : Elems → Nat → Elems
  | .nil, _ => .nil
  | .hole tl, 0 => .hole tl
  | .cons _ tl, 0 => .hole tl
  | .hole tl, n+1 => .hole (edel tl n)
  | .cons v tl, n+1 => .cons v (edel tl n)

/-- Index strings of the present (non-hole) elements starting at i, in
ascending order; used for Object.keys of an array. -/
def epresentFrom (i : Nat) : Elems → List String
  | .nil => []
  | .hole tl => epresentFrom (i+1) tl
  | .cons _ tl => ntos i :: epresentFrom (i+1) tl

/-- Present (non-hole) elements in order (Object.values of an array). -/
def epresent : Elems → List Value
  | .nil => []
  | .hole tl => epresent tl
  | .cons v tl => v :: epresent tl

/-! ## Property access with JavaScript key semantics

A property key is either a string or an array index. On arrays, a string
key that is the canonical decimal spelling of an index is that index.
-/

inductive JKey where
  | str (s : String) : JKey
  | idx (n : Nat) : JKey
deriving DecidableEq

/-- The canonical-numeric-string test: some n exactly when s is the
decimal spelling of n (so no leading zeros, no sign, no blanks). -/
def canonNat? (s : String) : Option Nat :=
  match digitsVal? s.toList with
  | some n => if ntos n = s then some n else none
  | none => none

/-- Normalize a key: a string key spelling an index is that index. -/
def knorm (k : JKey) : JKey :=
  match k with
  | .str s => match canonNat? s with
    | some n => .idx n
    | none => .str s
  | .idx n => .idx n

def keyAsString : JKey → String
  | .str s => s
  | .idx n => ntos n

def isArrV : Value → Bool
  | .vArr _ _ => true
  | _ => false

/-- A non-array, non-null object (the shape the map branch of the
reconciler accepts without replacement). -/
def isObjV : Value → Bool
  | .vObj _ => true
  | _ => false

/-- The check typeof v is object and v is not null, the diff engine's
isObject: true for plain objects and for arrays. -/
def isObjectJS : Value → Bool
  | .vObj _ => true
  | .vArr _ _ => true
  | _ => false

/-- Property read, total. On null and undefined this returns undefined
where JavaScript would throw; every use outside the guard is at a base
checked to be an object or array, and the guard wraps this in jsRead,
which raises on those bases. String bases expose their character
positions, as JavaScript strings do. -/
def getProp (v : Value) (k : JKey) : Value :=
  match v, knorm k with
  | .vObj fs, .str s => (fieldsGet fs s).getD .vUndef
  | .vObj fs, .idx n => (fieldsGet fs (ntos n)).getD .vUndef
  | .vArr es _, .idx n => (eget es n).getD .vUndef
  | .vArr _ ps, .str s => (fieldsGet ps s).getD .vUndef
  | .vStr s, .idx n => if n < s.length then .vStr (String.singleton (s.toList.getD n ' '))
      else .vUndef
  | _, _ => (.vUndef)

/-- Property write, total. Writes to primitives, null and undefined leave
the value unchanged here; call sites in the reconciler and diff are all on
object or array bases, and the guard wraps this in jsWrite, which raises
on non-object bases as a strict-mode JavaScript assignment would. -/
def setProp (v : Value) (k : JKey) (w : Value) : Value :=
  match v, knorm k with
  | .vObj fs, .str s => .vObj (fieldsSet fs s w)
  | .vObj fs, .idx n => .vObj (fieldsSet fs (ntos n) w)
  | .vArr es ps, .idx n => .vArr (eset es n w) ps
  | .vArr es ps, .str s => .vArr es (fieldsSet ps s w)
  | v, _ => v

/-- Property delete, total. -/
def delProp (v : Value) (k : JKey) : Value :=
  match v, knorm k with
  | .vObj fs, .str s => .vObj (fieldsDel fs s)
  | .vObj fs, .idx n => .vObj (fieldsDel fs (ntos n))
  | .vArr es ps, .idx n => .vArr (edel es n) ps
  | .vArr es ps, .str s => .vArr es (fieldsDel ps s)
  | v, _ => v

/-- Object.hasOwn. -/
def hasOwn (v : Value) (k : JKey) : Bool :=
  match v, knorm k with
  | .vObj fs, .str s => fieldsHas fs s
  | .vObj fs, .idx n => fieldsHas fs (ntos n)
  | .vArr es _, .idx n => (eget es n).isSome
  | .vArr _ ps, .str s => fieldsHas ps s
  | .vStr s, .idx n => decide (n < s.length)
  | _, _ => false

/-- Object.keys, total: enumerable own keys in order (array element
indices before array named properties; character indices of a string).
Returns the empty list on null and undefined, where JavaScript throws;
the guard wraps this in jsKeys, which raises there. -/
def objKeys : Value → List String
  | .vObj fs => fieldsKeys fs
  | .vArr es ps => epresentFrom 0 es ++ fieldsKeys ps
  | .vStr s => (List.range s.length).map ntos
  | _ => []

/-- Object.values, total, same conventions as objKeys. -/
def objVals : Value → List Value
  | .vObj fs => fieldsVals fs
  | .vArr es ps => epresent es ++ fieldsVals ps
  | .vStr s => (List.range s.length).map (fun i => getProp (.vStr s) (.idx i))
  | _ => []

example : getProp (.vArr (.cons (.vNum 7) .nil) .nil) (.str "0") = .vNum 7 := by decide
example : objKeys (.vArr (.hole (.cons (.vNum 1) .nil)) (.cons "x" .vNull .nil))
    = ["1", "x"] := by decide

/-! ## Schema descriptors

One constructor per descriptor kind of the source (StringSchema,
OptionalStringSchema, NumberSchema, OptionalNumberSchema,
StringNumberSchema, BooleanSchema, ArraySchema, MapSchema, ObjectSchema).
Defaults carry the type the TypeScript interfaces impose; a null default
of an optional kind is Option.none, a string-or-number default is a sum.
Only primitive descriptors carry a locked flag, because the source reads
value.locked only after isPrimitiveSchema. A whole schema, and the field
table of an ObjectSchema, is a SchemaFields list.
-/

mutual
inductive SchemaV where
  | sStr (d : String) (locked : Bool) : SchemaV
  | sStrOpt (d : Option String) (locked : Bool) : SchemaV
  | sNum (d : Int) (locked : Bool) : SchemaV
  | sNumOpt (d : Option Int) (locked : Bool) : SchemaV
  | sStrNum (d : String ⊕ Int) (locked : Bool) : SchemaV
  | sBool (d : Bool) (locked : Bool) : SchemaV
  | sArr (of : SchemaV) : SchemaV
  | sMap (of : SchemaV) : SchemaV
  | sObj (fields : SchemaFields) : SchemaV
inductive SchemaFields where
  | fnil : SchemaFields
  | fcons (key : String) (sch : SchemaV) (tl : SchemaFields) : SchemaFields
end

/-- Single-motive induction over SchemaFields. -/
theorem schemaFieldsInd (P : SchemaFields → Prop) (h1 : P .fnil)
    (h2 : ∀ k s tl, P tl → P (.fcons k s tl)) : ∀ fs, P fs
  | .fnil => h1
  | .fcons k s tl => h2 k s tl (schemaFieldsInd P h1 h2 tl)

mutual
def ssize : SchemaV → Nat
  | .sArr o => 1 + ssize o
  | .sMap o => 1 + ssize o
  | .sObj fs => 1 + sfsize fs
  | _ => 1
def sfsize : SchemaFields → Nat
  | .fnil => 0
  | .fcons _ s tl => ssize s + sfsize tl
end

def schemaKeys : SchemaFields → List String
  | .fnil => []
  | .fcons k _ tl => k :: schemaKeys tl

def sfGet : SchemaFields → String → Option SchemaV
  | .fnil, _ => none
  | .fcons k s tl, q => if k = q then some s else sfGet tl q

/-- isPrimitiveSchema of the source. -/
def isPrimitiveSchema : SchemaV → Bool
  | .sStr _ _ | .sStrOpt _ _ | .sNum _ _ | .sNumOpt _ _ | .sStrNum _ _ | .sBool _ _ => true
  | _ => false

/-- The locked flag; the source only consults it on primitive
descriptors, so composite kinds answer false. -/
def lockedOf : SchemaV → Bool
  | .sStr _ l | .sStrOpt _ l | .sNum _ l | .sNumOpt _ l | .sStrNum _ l | .sBool _ l => l
  | _ => false

/-- The declared default of a primitive descriptor as a runtime value. -/
def defaultOf : SchemaV → Value
  | .sStr d _ => .vStr d
  | .sStrOpt (some d) _ => .vStr d
  | .sStrOpt none _ => .vNull
  | .sNum d _ => .vNum d
  | .sNumOpt (some d) _ => .vNum d
  | .sNumOpt none _ => .vNull
  | .sStrNum (.inl d) _ => .vStr d
  | .sStrNum (.inr d) _ => .vNum d
  | .sBool d _ => .vBool d
  | .sArr _ => .vArr .nil .nil
  | .sMap _ => .vObj .nil
  | .sObj _ => .vObj .nil

/-- The value installed by the add-missing-key step of checkTypeMatching:
an empty array for array descriptors, an empty object for map and object
descriptors, the declared default otherwise. -/
def initVal : SchemaV → Value
  | .sArr _ => .vArr .nil .nil
  | .sMap _ => .vObj .nil
  | .sObj _ => .vObj .nil
  | p => defaultOf p

def isStrV : Value → Bool | .vStr _ => true | _ => false
def isNumV : Value → Bool | .vNum _ => true | _ => false
def isBoolV : Value → Bool | .vBool _ => true | _ => false

/-- primitiveTypeDoesNotMatch of the source: the runtime-type check of a
value against a primitive descriptor (typeof string / number / boolean,
with the optional kinds also accepting null). -/
def primitiveTypeDoesNotMatch (sch : SchemaV) (v : Value) : Bool :=
  match sch with
  | .sStr _ _ => !isStrV v
  | .sStrOpt _ _ => !(v = .vNull) && !isStrV v
  | .sNum _ _ => !isNumV v
  | .sNumOpt _ _ => !(v = .vNull) && !isNumV v
  | .sStrNum _ _ => !isStrV v && !isNumV v
  | .sBool _ _ => !isBoolV v
  | _ => false

/-! ## The reconciler: checkTypeMatching and cleanUp

The source's checkTypeMatching(obj, key, value) mutates obj at key and
returns obj. Every branch reads obj[key] and writes back at the same key,
so we embed it as a transformation fixAt of the value at the key, with
checkTypeMatching itself the wrapper that reads, transforms and writes.
The add-missing-key step, which runs first when the parent is a non-array
object lacking the key, is kept literally even though every switch branch
treats an undefined current value exactly as it treats the installed
initial value.

Recursion is by explicit fuel, structural in the fuel so that every
definition evaluates by kernel reduction; entry points supply a fuel no
smaller than the schema size, which the fueled lemmas show is enough.
-/

/-- One pass of the source's array-branch loop, for k in [i, i+n): the
element at k is read (a hole or out-of-range slot reads as undefined),
transformed, and written back (making it present). -/
def arrPass (f : Value → Value) : Nat → Nat → Elems → Elems
  | _, 0, es => es
  | i, n+1, es => arrPass f (i+1) n (eset es i (f ((eget es i).getD .vUndef)))

/-- One pass of the source's map-branch loop over the keys of a plain
object: JavaScript objects hold each key once, so iterating Object.keys
and updating in place is a per-entry map. -/
def fmapVals (f : Value → Value) : Fields → Fields
  | .nil => .nil
  | .cons k v tl => .cons k (f v) (fmapVals f tl)

/-- The object-branch loop over the declared fields: for each declared
key in order, read the current value at that key (undefined when absent),
reconcile it against the declared sub-descriptor (f), and write it back.
On a plain object an absent key is appended, preserving insertion order;
on an array value a canonically numeric declared key addresses an
element and any other declared key a named property, as in JavaScript. -/
def sfPass (f : SchemaV → Value → Value) : SchemaFields → Value → Value
  | .fnil, cur => cur
  | .fcons k sub tl, cur =>
      sfPass f tl (setProp cur (.str k) (f sub (getProp cur (.str k))))

/-- The strip loop shared by cleanUp and the object branch: delete every
key of the value that is not among the declared keys (a deleted array
index becomes a hole). The key list is the snapshot taken before the
first delete, as in the source. -/
def stripKeys (v : Value) (keep : List String) : Value :=
  (objKeys v).foldl (fun w k => if keep.contains k then w else delProp w (.str k)) v

/-- The switch of checkTypeMatching as a transformation of the value
found at the key (fueled). -/
def fixAtF : Nat → SchemaV → Value → Value
  | 0, _, v => v
  | n+1, sch, v =>
    if isPrimitiveSchema sch then
      if primitiveTypeDoesNotMatch sch v then defaultOf sch else v
    else match sch with
    | .sArr of =>
      (match v with
       | .vArr es ps => .vArr (arrPass (fixAtF n of) 0 (elen es) es) ps
       | _ => .vArr .nil .nil)
    | .sMap of =>
      (match v with
       | .vObj fs => .vObj (fmapVals (fixAtF n of) fs)
       | _ => .vObj .nil)
    | .sObj fields =>
      let base := if isObjectJS v then v else .vObj .nil
      let r := sfPass (fixAtF n) fields base
      stripKeys r (schemaKeys fields)
    | _ => v

/-- checkTypeMatching of the source (fueled): add the key when the parent
is a non-array object lacking it, then apply the switch to the value at
the key and write it back. -/
def checkTypeMatchingF (n : Nat) (obj : Value) (key : JKey) (sch : SchemaV) : Value :=
  let obj := if !isArrV obj && !hasOwn obj key then setProp obj key (initVal sch) else obj
  setProp obj key (fixAtF n sch (getProp obj key))

/-- cleanUp of the source (fueled): reconcile every schema key on the
document, then delete every document key not in the schema. -/
def cleanUpF (n : Nat) (sch : SchemaFields) (d : Value) : Value :=
  let d := sfPassTop n sch d
  stripKeys d (schemaKeys sch)
where
  sfPassTop (n : Nat) : SchemaFields → Value → Value
    | .fnil, d => d
    | .fcons k sub tl, d => sfPassTop n tl (checkTypeMatchingF n d (.str k) sub)

/-- The switch of checkTypeMatching with enough fuel for its schema. -/
def fixAt (sch : SchemaV) (v : Value) : Value := fixAtF (ssize sch) sch v

/-- checkTypeMatching with enough fuel for its schema. -/
def checkTypeMatching (obj : Value) (key : JKey) (sch : SchemaV) : Value :=
  checkTypeMatchingF (ssize sch) obj key sch

/-- cleanUp with enough fuel for its schema. -/
def cleanUp (sch : SchemaFields) (d : Value) : Value :=
  cleanUpF (1 + sfsize sch) sch d

/-! ## JSON normal forms

JSON.parse (JSON.stringify v) as a tree transformation: serialization
drops fields whose value is undefined and the named properties of arrays,
and renders holes and undefined array elements as null. Two values have
equal JSON.stringify output exactly when their normal forms are equal
(object key order is insertion order on both sides), which is how every
stringify comparison of the source is embedded.
-/

mutual
def jsonNorm : Value → Value
  | .vArr es _ => .vArr (jnElems es) .nil
  | .vObj fs => .vObj (jnFields fs)
  | v => v
def jnElems : Elems → Elems
  | .nil => .nil
  | .hole tl => .cons .vNull (jnElems tl)
  | .cons .vUndef tl => .cons .vNull (jnElems tl)
  | .cons v tl => .cons (jsonNorm v) (jnElems tl)
def jnFields : Fields → Fields
  | .nil => .nil
  | .cons _ .vUndef tl => jnFields tl
  | .cons k v tl => .cons k (jsonNorm v) (jnFields tl)
end

/-! ## String rendering of values

jsToStr is the template-literal conversion used for file names and
for the primitive case of formatLog; array elements inside a join render
null, undefined and holes as the empty string, as Array.prototype.join
does.
-/

mutual
def jsToStr : Value → String
  | .vNull => "null"
  | .vUndef => "undefined"
  | .vBool true => "true"
  | .vBool false => "false"
  | .vNum n => toString n
  | .vStr s => s
  | .vArr es _ => String.intercalate "," (elemStrs es)
  | .vObj _ => "[object Object]"
def elemStrs : Elems → List String
  | .nil => []
  | .hole tl => "" :: elemStrs tl
  | .cons .vNull tl => "" :: elemStrs tl
  | .cons .vUndef tl => "" :: elemStrs tl
  | .cons v tl => jsToStr v :: elemStrs tl
end

/-! ## The store and the CRUD facade

The database directory is an association list from file name stem (the
rendered _id) to the parsed JSON content of the file; writing a file
overwrites in place or appends a new entry, and what is written is the
JSON normal form, since files hold serialized text.
-/

inductive DbError where
  /-- Could not find a document with the given filter. -/
  | notFound : DbError
  /-- A locked property has been changed. -/
  | lockedChanged : DbError
  /-- Type of received object is not assignable to type of database. -/
  | schemaTypeError : DbError
  /-- a TypeError raised by the JavaScript runtime itself, such as reading
  a property of null or converting null to an object in Object.keys -/
  | jsTypeError : DbError
deriving DecidableEq

deriving instance DecidableEq for Except

abbrev Store := List (String × Value)

def storeWrite : Store → String → Value → Store
  | [], id, v => [(id, v)]
  | (k, w) :: tl, id, v => if k = id then (k, v) :: tl else (k, w) :: storeWrite tl id v

/-- The rendered _id, as interpolated into the file name. -/
def idOf (d : Value) : String := jsToStr (getProp d (.str "_id"))

/-- save of the source: clean a deep copy, in strict mode fail when the
serialization of the original differs from the serialization of the
cleaned copy, otherwise write the original (not the cleaned copy). -/
def save (strict : Bool) (sch : SchemaFields) (st : Store) (updateObject : Value) :
    Except DbError Store :=
  let dataObject := cleanUp sch (jsonNorm updateObject)
  if strict && (jsonNorm updateObject != jsonNorm dataObject) then .error .schemaTypeError
  else .ok (storeWrite st (idOf updateObject) (jsonNorm updateObject))

/-- find of the source: clean every stored document, then filter. -/
def find (sch : SchemaFields) (st : Store) (filter : Value → Bool) : List Value :=
  (st.map (fun e => cleanUp sch e.2)).filter filter

/-- findOne of the source: the first cleaned document passing the filter,
else a not-found error. -/
def findOne (sch : SchemaFields) (st : Store) (filter : Value → Bool) :
    Except DbError Value :=
  match (st.map (fun e => cleanUp sch e.2)).find? filter with
  | some f => .ok f
  | none => .error .notFound

/-- create of the source: save, then return the argument itself. -/
def create (strict : Bool) (sch : SchemaFields) (st : Store) (d : Value) :
    Except DbError (Store × Value) :=
  (save strict sch st d).map (fun st2 => (st2, d))

/-! ## The locked-field guard: changeLockedBack

Embedded in an error monad: the guard's property reads, writes and key
enumerations are the ones that can hit null or a primitive, so each goes
through jsRead, jsWrite or jsKeys, which raise the TypeError JavaScript
would raise (jsWrite to a primitive raises as in strict-mode code, which
the compiled package runs as).
-/

def jsRead (v : Value) (k : JKey) : Except DbError Value :=
  match v with
  | .vNull => .error .jsTypeError
  | .vUndef => .error .jsTypeError
  | _ => .ok (getProp v k)

def jsWrite (v : Value) (k : JKey) (w : Value) : Except DbError Value :=
  match v with
  | .vObj _ => .ok (setProp v k w)
  | .vArr _ _ => .ok (setProp v k w)
  | _ => .error .jsTypeError

def jsKeys (v : Value) : Except DbError (List String) :=
  match v with
  | .vNull => .error .jsTypeError
  | .vUndef => .error .jsTypeError
  | _ => .ok (objKeys v)

def arrLenOf : Value → Nat
  | .vArr es _ => elen es
  | _ => 0

/-- The array-branch loop: for indices i, i+1, ... (m of them), read both
sides fresh, recurse at the element descriptor, write the result back. -/
def guardIdxLoop (g : Value → Value → JKey → SchemaV → Except DbError Value)
    (of : SchemaV) (obj1 : Value) :
    Value → JKey → Nat → Nat → Except DbError Value
  | obj2, _, _, 0 => .ok obj2
  | obj2, key, i, m+1 => do
      let v1 ← jsRead obj1 key
      let v2 ← jsRead obj2 key
      let r ← g v1 v2 (.idx i) of
      let obj2' ← jsWrite obj2 key r
      guardIdxLoop g of obj1 obj2' key (i+1) m

/-- The map-branch loop over a key list. -/
def guardKeyLoop (g : Value → Value → JKey → SchemaV → Except DbError Value)
    (of : SchemaV) (obj1 : Value) :
    Value → JKey → List String → Except DbError Value
  | obj2, _, [] => .ok obj2
  | obj2, key, k :: ks => do
      let v1 ← jsRead obj1 key
      let v2 ← jsRead obj2 key
      let r ← g v1 v2 (.str k) of
      let obj2' ← jsWrite obj2 key r
      guardKeyLoop g of obj1 obj2' key ks

/-- The object-branch loop over the declared fields. -/
def guardFieldLoop (g : Value → Value → JKey → SchemaV → Except DbError Value)
    (obj1 : Value) :
    Value → JKey → SchemaFields → Except DbError Value
  | obj2, _, .fnil => .ok obj2
  | obj2, key, .fcons k sub tl => do
      let v1 ← jsRead obj1 key
      let v2 ← jsRead obj2 key
      let r ← g v1 v2 (.str k) sub
      let obj2' ← jsWrite obj2 key r
      guardFieldLoop g obj1 obj2' key tl

/-- changeLockedBack of the source (fueled): restore a changed locked
primitive at the key from obj1 into obj2; recurse through arrays (the
iteration length taken from obj2's array when obj2 holds one, else from
obj1's array, else zero), through maps (iterating obj1's keys when it has
any, else obj2's), and through objects (iterating the declared fields).
Returns the updated obj2. -/
def clbF : Nat → Value → Value → JKey → SchemaV → Except DbError Value
  | 0, _, obj2, _, _ => .ok obj2
  | n+1, obj1, obj2, key, sch =>
    if isPrimitiveSchema sch then
      if lockedOf sch then do
        let v2 ← jsRead obj2 key
        let v1 ← jsRead obj1 key
        if v2 ≠ v1 then jsWrite obj2 key v1 else .ok obj2
      else .ok obj2
    else match sch with
    | .sArr of => do
        let a2 ← jsRead obj2 key
        let len ← if isArrV a2 then pure (arrLenOf a2) else do
            let a1 ← jsRead obj1 key
            pure (if isArrV a1 then arrLenOf a1 else 0)
        guardIdxLoop (clbF n) of obj1 obj2 key 0 len
    | .sMap of => do
        let m1 ← jsRead obj1 key
        let ks1 ← jsKeys m1
        let m2 ← jsRead obj2 key
        let ks2 ← jsKeys m2
        guardKeyLoop (clbF n) of obj1 obj2 key (if ks1.length > 0 then ks1 else ks2)
    | .sObj fields => guardFieldLoop (clbF n) obj1 obj2 key fields
    | _ => .ok obj2

/-- changeLockedBack with enough fuel for its schema. -/
def changeLockedBack (obj1 obj2 : Value) (key : JKey) (sch : SchemaV) :
    Except DbError Value :=
  clbF (ssize sch) obj1 obj2 key sch

/-- The guard loop of findOneAndUpdate, with the aliasing of the source:
each iteration runs updateObject = changeLockedBack(updateObject,
newDataObject, key, descriptor); changeLockedBack mutates and returns its
second argument, so after an iteration both variables hold that same
updated object. -/
def guardTop : SchemaFields → Value → Value → Except DbError (Value × Value)
  | .fnil, u, nd => .ok (u, nd)
  | .fcons k sub tl, u, nd => do
      let nd2 ← changeLockedBack u nd (.str k) sub
      guardTop tl nd2 nd2

/-- findOneAndUpdate of the source. The update function stands for the
net effect of the caller's in-place mutation of the deep copy. The
console log of the diff is a side effect with no bearing on the result
and is not modeled here; the diff engine itself is embedded below. -/
def findOneAndUpdate (strict : Bool) (sch : SchemaFields) (st : Store)
    (filter : Value → Bool) (updateFn : Value → Value) :
    Except DbError (Store × Value) := do
  let dataObject ← findOne sch st filter
  let newDataObject := updateFn (jsonNorm dataObject)
  let updateObject := jsonNorm newDataObject
  let (u, nd) ← guardTop sch updateObject newDataObject
  if jsonNorm u != jsonNorm nd then .error .lockedChanged
  else do
    let st2 ← save strict sch st nd
    .ok (st2, nd)

/-! ## The diff engine: formatLog and createLogArray -/

mutual
def vsize : Value → Nat
  | .vArr es ps => 1 + esize es + fsize ps
  | .vObj fs => 1 + fsize fs
  | _ => 1
def esize : Elems → Nat
  | .nil => 0
  | .hole tl => 1 + esize tl
  | .cons v tl => 1 + vsize v + esize tl
def fsize : Fields → Nat
  | .nil => 0
  | .cons _ v tl => 1 + vsize v + fsize tl
end

/-- objectKeyOrUndefined of the source. -/
def oku (v : Value) (k : String) : Value :=
  if isObjectJS v then getProp v (.str k) else (.vUndef)

/-- Object.values(val).filter(isObject).length is positive. -/
def hasObjectsAsValues (v : Value) : Bool :=
  (objVals v).any isObjectJS

/-- Loose equality as used by objectReducer's comparison. Modeled for the
value shapes the library stores: null and undefined are mutually equal,
same-type primitives compare structurally, a number and a string compare
by parsing the string as a decimal natural number (JavaScript converts
the string to a number; signs, blanks and fractions are not modeled), a
boolean converts to 0 or 1 first, and a comparison involving an object or
array answers false (the ToPrimitive coercion is not modeled; no claim
depends on this function). -/
def jsLooseEq (a b : Value) : Bool :=
  match a, b with
  | .vNull, .vNull => true
  | .vNull, .vUndef => true
  | .vUndef, .vNull => true
  | .vUndef, .vUndef => true
  | .vNum n, .vNum m => n = m
  | .vStr s, .vStr t => s = t
  | .vBool x, .vBool y => x = y
  | .vNum n, .vStr s => (digitsVal? s.toList).elim false (fun m => n = (m : Int))
  | .vStr s, .vNum n => (digitsVal? s.toList).elim false (fun m => n = (m : Int))
  | .vBool x, .vNum n => n = (if x then 1 else 0)
  | .vNum n, .vBool x => n = (if x then 1 else 0)
  | .vBool x, .vStr s => (digitsVal? s.toList).elim false (fun m => (m : Int) = (if x then 1 else 0))
  | .vStr s, .vBool x => (digitsVal? s.toList).elim false (fun m => (m : Int) = (if x then 1 else 0))
  | _, _ => false

/-- Merge a reduced field table into an accumulator, as an object spread
does: an existing key is updated in place, a new key is appended. -/
def fieldsMergeAll : Fields → Fields → Fields
  | acc, .nil => acc
  | acc, .cons k v tl => fieldsMergeAll (fieldsSet acc k v) tl

/-- objectReducer of the source (fueled): keep of mainObject only the
non-object values that differ loosely from the other side's value at the
same key, flattening nested objects by spreading their reduced form. -/
def orF : Nat → Value → Value → Fields
  | 0, _, _ => .nil
  | n+1, main, other =>
    (objKeys main).foldl (fun acc k =>
      let mk := getProp main (.str k)
      if !isObjectJS mk then
        if !isObjectJS other || !jsLooseEq mk (getProp other (.str k)) then fieldsSet acc k mk
        else acc
      else fieldsMergeAll acc
        (orF n mk (if isObjectJS other then getProp other (.str k) else .vUndef)))
      .nil

def padSp : Nat → String
  | 0 => ""
  | n+1 => " " ++ padSp n

def escJSON (s : String) : String :=
  s.toList.foldl (fun acc c =>
    acc ++ (if c = '"' then "\\\"" else if c = '\\' then "\\\\"
      else if c = '\n' then "\\n" else if c = '\t' then "\\t"
      else if c = '\r' then "\\r" else String.singleton c)) ""

/-! JSON.stringify(v, null, 1): pretty printing with one space of
indentation per level. Undefined-valued fields are dropped; a hole or an
undefined element renders as null. -/
mutual
def jstr1 : Nat → Value → String
  | _, .vNull => "null"
  | _, .vUndef => "null"
  | _, .vBool true => "true"
  | _, .vBool false => "false"
  | _, .vNum n => toString n
  | _, .vStr s => "\"" ++ escJSON s ++ "\""
  | ind, .vObj fs =>
    match jstr1Fields (ind+1) fs with
    | [] => "\x7b\x7d"
    | parts => "\x7b\n" ++ String.intercalate ",\n" parts ++ "\n" ++ padSp ind ++ "\x7d"
  | ind, .vArr es _ =>
    match jstr1Elems (ind+1) es with
    | [] => "[]"
    | parts => "[\n" ++ String.intercalate ",\n" parts ++ "\n" ++ padSp ind ++ "]"
def jstr1Fields : Nat → Fields → List String
  | _, .nil => []
  | ind, .cons _ .vUndef tl => jstr1Fields ind tl
  | ind, .cons k v tl =>
      (padSp ind ++ "\"" ++ escJSON k ++ "\": " ++ jstr1 ind v) :: jstr1Fields ind tl
def jstr1Elems : Nat → Elems → List String
  | _, .nil => []
  | ind, .hole tl => (padSp ind ++ "null") :: jstr1Elems ind tl
  | ind, .cons v tl => (padSp ind ++ jstr1 ind v) :: jstr1Elems ind tl
end

def splitNl : List Char → List (List Char)
  | [] => [[]]
  | c :: tl =>
    let r := splitNl tl
    if c = '\n' then [] :: r
    else match r with
      | [] => [[c]]
      | hd :: rest => (c :: hd) :: rest

/-- Collapse a leading run of spaces of one line to a single space (the
per-line regex replacement of formatLog); a line with no leading space is
unchanged. -/
def collapseLine (l : List Char) : List Char :=
  let t := l.dropWhile (fun c => c = ' ')
  if t.length < l.length then ' ' :: t else l

/-- Replace, left to right and without overlap, each occurrence of the
two-character pattern p1 p2 by the single character repl. -/
def replacePair (p1 p2 repl : Char) : List Char → List Char
  | [] => []
  | [c] => [c]
  | a :: b :: tl =>
    if a = p1 ∧ b = p2 then repl :: replacePair p1 p2 repl tl
    else a :: replacePair p1 p2 repl (b :: tl)

def lbrace : Char := Char.ofNat 123
def rbrace : Char := Char.ofNat 125

/-- The replacement chain of formatLog: collapse leading spaces of each
line to one space, remove newlines, remove double quotes, and tighten
spaces after opening and before closing braces and brackets. -/
def replaceChain (s : String) : String :=
  let lines := splitNl s.toList
  let cs := (lines.map collapseLine).flatten
  let cs := cs.filter (fun c => c ≠ '"')
  let cs := replacePair lbrace ' ' lbrace cs
  let cs := replacePair ' ' rbrace rbrace cs
  let cs := replacePair '[' ' ' '[' cs
  let cs := replacePair ' ' ']' ']' cs
  String.mk cs

/-- formatLog of the source: a primitive prints as its template-literal
form, an array as its bracketed comma-space join, and an object as the
whitespace-collapsed JSON rendering of its reduced form against the other
side. -/
def formatLog (main other : Value) : String :=
  if !isObjectJS main then jsToStr main
  else match main with
  | .vArr es _ => "[" ++ String.intercalate ", " (elemStrs es) ++ "]"
  | m => replaceChain (jstr1 0 (.vObj (orF (vsize m) m other)))

structure LogRec where
  path : String
  oldValue : String
  newValue : String
deriving DecidableEq

/-- createLogArray of the source (fueled): iterate the keys of newObject
(or of oldObject when newObject has none and oldObject has some); recurse
when newObject's value at the key is an object containing object values,
or both sides' values are objects and oldObject's contains object values;
otherwise emit one record exactly when the two formatted strings differ. -/
def createLogArrayF : Nat → Value → Value → String → List LogRec
  | 0, _, _, _ => []
  | n+1, oldO, newO, path =>
    let iterKeys := if (objKeys newO).length = 0 && (objKeys oldO).length > 0
      then objKeys oldO else objKeys newO
    iterKeys.foldl (fun acc k =>
      let newK := getProp newO (.str k)
      let oldK := oku oldO k
      if isObjectJS newO && isObjectJS newK &&
          (hasObjectsAsValues newK ||
            (isObjectJS oldO && isObjectJS oldK && hasObjectsAsValues oldK)) then
        acc ++ createLogArrayF n (oku oldO k) newK (path ++ "." ++ k)
      else
        let a := formatLog (oku oldO k) (oku newO k)
        let b := formatLog (oku newO k) (oku oldO k)
        if a != b then acc ++ [⟨path ++ "." ++ k, a, b⟩] else acc)
      []

/-- createLogArray with a fuel symmetric in the two documents and large
enough for the recursion, which descends into a subterm of newObject at
every step. -/
def createLogArray (oldO newO : Value) (path : String) : List LogRec :=
  createLogArrayF (vsize oldO + vsize newO + 1) oldO newO path

/-! ## Basic lemmas about the list operations -/

theorem fieldsGet_set_self (fs : Fields) (k : String) (w : Value) :
    fieldsGet (fieldsSet fs k w) k = some w := by
  induction fs using fieldsInd with
  | h1 => simp [fieldsSet, fieldsGet]
  | h2 k2 v tl ih =>
    by_cases h : k2 = k <;> simp [fieldsSet, fieldsGet, h, ih]

theorem fieldsGet_set_other (fs : Fields) (k q : String) (w : Value) (h : k ≠ q) :
    fieldsGet (fieldsSet fs k w) q = fieldsGet fs q := by
  induction fs using fieldsInd with
  | h1 => simp [fieldsSet, fieldsGet, h]
  | h2 k2 v tl ih =>
    by_cases h2 : k2 = k
    · subst h2; simp [fieldsSet, fieldsGet, h]
    · simp [fieldsSet, fieldsGet, h2, ih]

theorem fieldsSet_set (fs : Fields) (k : String) (a b : Value) :
    fieldsSet (fieldsSet fs k a) k b = fieldsSet fs k b := by
  induction fs using fieldsInd with
  | h1 => simp [fieldsSet]
  | h2 k2 v tl ih =>
    by_cases h : k2 = k <;> simp [fieldsSet, h, ih]

/-- Writing back the value already found at a key is the identity. -/
theorem fieldsSet_get_self (fs : Fields) (k : String) (w : Value)
    (h : fieldsGet fs k = some w) : fieldsSet fs k w = fs := by
  induction fs using fieldsInd with
  | h1 => simp [fieldsGet] at h
  | h2 k2 v tl ih =>
    by_cases h2 : k2 = k
    · subst h2; simp [fieldsGet] at h; simp [fieldsSet, h]
    · simp [fieldsGet, h2] at h; simp [fieldsSet, h2, ih h]

theorem fieldsKeys_set_mem (fs : Fields) (k : String) (w : Value)
    (h : fieldsHas fs k = true) : fieldsKeys (fieldsSet fs k w) = fieldsKeys fs := by
  induction fs using fieldsInd with
  | h1 => simp [fieldsHas, fieldsGet] at h
  | h2 k2 v tl ih =>
    by_cases h2 : k2 = k
    · subst h2; simp [fieldsSet, fieldsKeys]
    · simp [fieldsHas, fieldsGet, h2] at h
      simp [fieldsSet, fieldsKeys, h2, ih h]

theorem fieldsKeys_set_new (fs : Fields) (k : String) (w : Value)
    (h : fieldsHas fs k = false) : fieldsKeys (fieldsSet fs k w) = fieldsKeys fs ++ [k] := by
  induction fs using fieldsInd with
  | h1 => simp [fieldsSet, fieldsKeys]
  | h2 k2 v tl ih =>
    by_cases h2 : k2 = k
    · subst h2; simp [fieldsHas, fieldsGet] at h
    · simp [fieldsHas, fieldsGet, h2] at h
      simp [fieldsSet, fieldsKeys, h2, ih (by simp [fieldsHas, h])]

theorem eget_eset_self (es : Elems) (n : Nat) (w : Value) :
    eget (eset es n w) n = some w := by
  induction n generalizing es with
  | zero => cases es <;> simp [eset, eget]
  | succ n ih => cases es <;> simp [eset, eget, ih]

theorem eget_eset_other (es : Elems) (n m : Nat) (w : Value) (h : n ≠ m) :
    eget (eset es n w) m = eget es m := by
  induction n generalizing es m with
  | zero =>
    cases es <;> cases m <;> simp_all [eset, eget]
  | succ n ih =>
    cases es <;> cases m <;> simp_all [eset, eget]

theorem eset_eset (es : Elems) (n : Nat) (a b : Value) :
    eset (eset es n a) n b = eset es n b := by
  induction n generalizing es with
  | zero => cases es <;> simp [eset]
  | succ n ih => cases es <;> simp [eset, ih]

theorem eset_get_self (es : Elems) (n : Nat) (w : Value)
    (h : eget es n = some w) : eset es n w = es := by
  induction n generalizing es with
  | zero => cases es <;> simp_all [eget, eset]
  | succ n ih => cases es <;> simp_all [eget, eset]

theorem elen_eset_lt (es : Elems) (n : Nat) (w : Value) (h : n < elen es) :
    elen (eset es n w) = elen es := by
  induction n generalizing es with
  | zero => cases es <;> simp_all [elen, eset]
  | succ n ih =>
    cases es with
    | nil => simp [elen] at h
    | hole tl => simp [elen, eset] at h ⊢; exact ih _ (by omega)
    | cons v tl => simp [elen, eset] at h ⊢; exact ih _ (by omega)

/-! ## The decimal spelling: roundtrip and injectivity -/

theorem digitVal?_dchar (d : Nat) (h : d < 10) : digitVal? (dchar d) = some d := by
  interval_cases d <;> decide

theorem ndigsF_ne_nil (f n : Nat) (h : n < f) : ndigsF f n ≠ [] := by
  cases f with
  | zero => omega
  | succ f =>
    by_cases h10 : n < 10 <;> simp [ndigsF, h10]

theorem ndigsF_fuel (f g n : Nat) (hf : n < f) (hg : n < g) :
    ndigsF f n = ndigsF g n := by
  induction n using Nat.strong_induction_on generalizing f g with
  | _ n ih =>
    cases f with | zero => omega | succ f =>
    cases g with | zero => omega | succ g =>
    by_cases h10 : n < 10
    · simp [ndigsF, h10]
    · have hd : n / 10 < n := Nat.div_lt_self (by omega) (by omega)
      simp only [ndigsF, h10, if_false]
      rw [ih (n / 10) hd f g (by omega) (by omega)]

theorem digitsVal?_append_digit (cs : List Char) (a d : Nat) (hne : cs ≠ [])
    (hcs : digitsVal? cs = some a) (hd : d < 10) :
    digitsVal? (cs ++ [dchar d]) = some (a * 10 + d) := by
  match cs with
  | [] => exact absurd rfl hne
  | c :: tl =>
    simp only [digitsVal?, List.cons_append] at hcs ⊢
    rw [← List.cons_append, List.foldl_append, hcs]
    simp [dvStep, digitVal?_dchar d hd]

theorem digitsVal?_ndigsF (n f : Nat) (h : n < f) :
    digitsVal? (ndigsF f n) = some n := by
  induction n using Nat.strong_induction_on generalizing f with
  | _ n ih =>
    cases f with | zero => omega | succ f =>
    by_cases h10 : n < 10
    · simp only [ndigsF, h10, if_true]
      simp [digitsVal?, dvStep, digitVal?_dchar n h10]
    · have hd : n / 10 < n := Nat.div_lt_self (by omega) (by omega)
      simp only [ndigsF, h10, if_false]
      rw [digitsVal?_append_digit _ (n / 10) (n % 10)
        (ndigsF_ne_nil f (n / 10) (by omega))
        (ih (n / 10) hd f (by omega)) (Nat.mod_lt n (by omega))]
      congr 1
      omega

theorem canonNat?_ntos (n : Nat) : canonNat? (ntos n) = some n := by
  have h : digitsVal? (ntos n).data = some n :=
    digitsVal?_ndigsF n (n+1) (Nat.lt_succ_self n)
  simp [canonNat?, String.toList, h]

theorem ntos_inj (a b : Nat) (h : ntos a = ntos b) : a = b := by
  have ha := canonNat?_ntos a
  rw [h, canonNat?_ntos b] at ha
  exact (Option.some_inj.mp ha).symm

theorem canonNat?_spelling (s : String) (n : Nat) (h : canonNat? s = some n) :
    ntos n = s := by
  unfold canonNat? at h
  match hd : digitsVal? s.toList with
  | none => rw [hd] at h; exact absurd h (by simp)
  | some m =>
    rw [hd] at h
    by_cases he : ntos m = s
    · simp [he] at h; rwa [← h]
    · simp [he] at h

theorem knorm_str (s : String) :
    knorm (.str s) = (match canonNat? s with | some n => JKey.idx n | none => .str s) := rfl

theorem knorm_str_ntos (n : Nat) : knorm (.str (ntos n)) = .idx n := by
  simp [knorm_str, canonNat?_ntos]

/-- knorm is injective on string keys: the string is recoverable. -/
theorem knorm_str_inj (a b : String) (h : knorm (.str a) = knorm (.str b)) : a = b := by
  rw [knorm_str, knorm_str] at h
  match ha : canonNat? a, hb : canonNat? b with
  | none, none => rw [ha, hb] at h; simpa using h
  | none, some m => rw [ha, hb] at h; simp at h
  | some n, none => rw [ha, hb] at h; simp at h
  | some n, some m =>
    rw [ha, hb] at h
    simp at h
    rw [← canonNat?_spelling a n ha, ← canonNat?_spelling b m hb, h]

/-! ## Value-level access lemmas

On a plain object, a string key accesses the field named by that very
string whether or not it spells an index, because the canonical spelling
of the index is the string itself.
-/

theorem getProp_obj_str (fs : Fields) (s : String) :
    getProp (.vObj fs) (.str s) = (fieldsGet fs s).getD .vUndef := by
  match h : canonNat? s with
  | none => simp only [getProp, knorm_str, h]
  | some n =>
    simp only [getProp, knorm_str, h]
    rw [canonNat?_spelling s n h]

theorem setProp_obj_str (fs : Fields) (s : String) (w : Value) :
    setProp (.vObj fs) (.str s) w = .vObj (fieldsSet fs s w) := by
  match h : canonNat? s with
  | none => simp only [setProp, knorm_str, h]
  | some n =>
    simp only [setProp, knorm_str, h]
    rw [canonNat?_spelling s n h]

theorem delProp_obj_str (fs : Fields) (s : String) :
    delProp (.vObj fs) (.str s) = .vObj (fieldsDel fs s) := by
  match h : canonNat? s with
  | none => simp only [delProp, knorm_str, h]
  | some n =>
    simp only [delProp, knorm_str, h]
    rw [canonNat?_spelling s n h]

theorem hasOwn_obj_str (fs : Fields) (s : String) :
    hasOwn (.vObj fs) (.str s) = fieldsHas fs s := by
  match h : canonNat? s with
  | none => simp only [hasOwn, knorm_str, h]
  | some n =>
    simp only [hasOwn, knorm_str, h]
    rw [canonNat?_spelling s n h]

theorem getProp_obj_idx (fs : Fields) (n : Nat) :
    getProp (.vObj fs) (.idx n) = (fieldsGet fs (ntos n)).getD .vUndef := rfl

theorem setProp_obj_idx (fs : Fields) (n : Nat) (w : Value) :
    setProp (.vObj fs) (.idx n) w = .vObj (fieldsSet fs (ntos n) w) := rfl

theorem delProp_obj_idx (fs : Fields) (n : Nat) :
    delProp (.vObj fs) (.idx n) = .vObj (fieldsDel fs (ntos n)) := rfl

theorem delProp_arr_idx (es : Elems) (ps : Fields) (n : Nat) :
    delProp (.vArr es ps) (.idx n) = .vArr (edel es n) ps := rfl

theorem delProp_arr_prop (es : Elems) (ps : Fields) (s : String)
    (h : canonNat? s = none) :
    delProp (.vArr es ps) (.str s) = .vArr es (fieldsDel ps s) := by
  simp only [delProp, knorm_str, h]

theorem delProp_arr_strIdx (es : Elems) (ps : Fields) (s : String) (n : Nat)
    (h : canonNat? s = some n) :
    delProp (.vArr es ps) (.str s) = .vArr (edel es n) ps := by
  simp only [delProp, knorm_str, h]

theorem getProp_arr_idx (es : Elems) (ps : Fields) (n : Nat) :
    getProp (.vArr es ps) (.idx n) = (eget es n).getD .vUndef := rfl

theorem setProp_arr_idx (es : Elems) (ps : Fields) (n : Nat) (w : Value) :
    setProp (.vArr es ps) (.idx n) w = .vArr (eset es n w) ps := rfl

/-- On an array, a non-index string key accesses the named properties. -/
theorem getProp_arr_prop (es : Elems) (ps : Fields) (s : String)
    (h : canonNat? s = none) :
    getProp (.vArr es ps) (.str s) = (fieldsGet ps s).getD .vUndef := by
  simp only [getProp, knorm_str, h]

theorem setProp_arr_prop (es : Elems) (ps : Fields) (s : String) (w : Value)
    (h : canonNat? s = none) :
    setProp (.vArr es ps) (.str s) w = .vArr es (fieldsSet ps s w) := by
  simp only [setProp, knorm_str, h]

theorem getProp_arr_strIdx (es : Elems) (ps : Fields) (s : String) (n : Nat)
    (h : canonNat? s = some n) :
    getProp (.vArr es ps) (.str s) = (eget es n).getD .vUndef := by
  simp only [getProp, knorm_str, h]

theorem setProp_arr_strIdx (es : Elems) (ps : Fields) (s : String) (n : Nat)
    (h : canonNat? s = some n) (w : Value) :
    setProp (.vArr es ps) (.str s) w = .vArr (eset es n w) ps := by
  simp only [setProp, knorm_str, h]

theorem knorm_idem (k : JKey) : knorm (knorm k) = knorm k := by
  match k with
  | .idx n => rfl
  | .str s =>
    rw [knorm_str]
    match h : canonNat? s with
    | some n => simp [h, knorm]
    | none => simp [knorm_str, h]

theorem getProp_knorm (v : Value) (k : JKey) : getProp v (knorm k) = getProp v k := by
  unfold getProp
  rw [knorm_idem]

theorem setProp_knorm (v : Value) (k : JKey) (w : Value) :
    setProp v (knorm k) w = setProp v k w := by
  unfold setProp
  rw [knorm_idem]

/-- A normalized key (a fixed point of knorm). -/
def isNormalK (k : JKey) : Prop := knorm k = k

theorem knorm_normal (k : JKey) : isNormalK (knorm k) := knorm_idem k

/-- Distinct normalized keys have distinct spellings, because a string
key is only normal when it does not spell an index. -/
theorem normal_keyAsString_inj (a b : JKey) (ha : isNormalK a) (hb : isNormalK b)
    (hne : a ≠ b) : keyAsString a ≠ keyAsString b := by
  match a, b with
  | .idx n, .idx m =>
    intro h
    exact hne (by rw [ntos_inj n m h])
  | .str s, .str t =>
    intro h
    exact hne (by rw [show s = t from h])
  | .idx n, .str t =>
    intro h
    simp only [keyAsString] at h
    unfold isNormalK at hb
    rw [knorm_str] at hb
    have : canonNat? t = some n := by
      rw [← h]; exact canonNat?_ntos n
    rw [this] at hb
    simp at hb
  | .str s, .idx m =>
    intro h
    simp only [keyAsString] at h
    unfold isNormalK at ha
    rw [knorm_str] at ha
    have : canonNat? s = some m := by
      rw [h]; exact canonNat?_ntos m
    rw [this] at ha
    simp at ha

theorem setProp_isObjV (fs : Fields) (k : JKey) (w : Value) :
    ∃ gs, setProp (.vObj fs) k w = .vObj gs := by
  unfold setProp
  match knorm k with
  | .str s => exact ⟨_, rfl⟩
  | .idx n => exact ⟨_, rfl⟩

theorem setProp_isArrV (es : Elems) (ps : Fields) (k : JKey) (w : Value) :
    ∃ es2 ps2, setProp (.vArr es ps) k w = .vArr es2 ps2 := by
  unfold setProp
  match knorm k with
  | .str s => exact ⟨_, _, rfl⟩
  | .idx n => exact ⟨_, _, rfl⟩

/-- Reading back a freshly written key on an object or array. -/
theorem getProp_setProp_self (v : Value) (k : JKey) (w : Value)
    (h : isObjectJS v = true) : getProp (setProp v k w) k = w := by
  match v with
  | .vObj fs =>
    unfold setProp getProp
    match knorm k with
    | .str s => simp [fieldsGet_set_self]
    | .idx n => simp [fieldsGet_set_self]
  | .vArr es ps =>
    unfold setProp getProp
    match knorm k with
    | .str s => simp [fieldsGet_set_self]
    | .idx n => simp [eget_eset_self]

theorem setProp_setProp_self (v : Value) (k : JKey) (a b : Value) :
    setProp (setProp v k a) k b = setProp v k b := by
  match v with
  | .vObj fs =>
    unfold setProp
    match knorm k with
    | .str s => simp [fieldsSet_set]
    | .idx n => simp [fieldsSet_set]
  | .vArr es ps =>
    unfold setProp
    match knorm k with
    | .str s => simp [fieldsSet_set]
    | .idx n => simp [eset_eset]
  | .vNull => rfl
  | .vUndef => rfl
  | .vBool bo => rfl
  | .vNum n => rfl
  | .vStr s => rfl

theorem isNormalK_str_canon (s : String) (h : isNormalK (.str s)) :
    canonNat? s = none := by
  unfold isNormalK at h
  rw [knorm_str] at h
  match hc : canonNat? s with
  | none => rfl
  | some n => rw [hc] at h; simp at h

/-- Writing one key leaves every other key unchanged. -/
theorem getProp_setProp_other (v : Value) (k q : JKey) (w : Value)
    (hne : knorm k ≠ knorm q) : getProp (setProp v k w) q = getProp v q := by
  rw [← setProp_knorm, ← getProp_knorm _ q, ← getProp_knorm v q]
  have hkn := knorm_normal k
  have hqn := knorm_normal q
  have hstr := normal_keyAsString_inj (knorm k) (knorm q) hkn hqn hne
  match hk : knorm k, hq : knorm q with
  | .str s, .str t =>
    rw [hk, hq] at hstr
    simp only [keyAsString] at hstr
    match v with
    | .vObj fs => rw [setProp_obj_str, getProp_obj_str, getProp_obj_str,
        fieldsGet_set_other fs s t w hstr]
    | .vArr es ps =>
      have hs := isNormalK_str_canon s (hk ▸ hkn)
      have ht := isNormalK_str_canon t (hq ▸ hqn)
      rw [setProp_arr_prop es ps s w hs, getProp_arr_prop _ _ t ht,
        getProp_arr_prop _ _ t ht, fieldsGet_set_other ps s t w hstr]
    | .vNull => rfl
    | .vUndef => rfl
    | .vBool b => rfl
    | .vNum n => rfl
    | .vStr str => rfl
  | .str s, .idx m =>
    rw [hk, hq] at hstr
    simp only [keyAsString] at hstr
    match v with
    | .vObj fs => rw [setProp_obj_str, getProp_obj_idx, getProp_obj_idx,
        fieldsGet_set_other fs s (ntos m) w hstr]
    | .vArr es ps =>
      have hs := isNormalK_str_canon s (hk ▸ hkn)
      rw [setProp_arr_prop es ps s w hs, getProp_arr_idx, getProp_arr_idx]
    | .vNull => rfl
    | .vUndef => rfl
    | .vBool b => rfl
    | .vNum n => rfl
    | .vStr str => rfl
  | .idx n, .str t =>
    rw [hk, hq] at hstr
    simp only [keyAsString] at hstr
    match v with
    | .vObj fs => rw [setProp_obj_idx, getProp_obj_str, getProp_obj_str,
        fieldsGet_set_other fs (ntos n) t w hstr]
    | .vArr es ps =>
      have ht := isNormalK_str_canon t (hq ▸ hqn)
      rw [setProp_arr_idx, getProp_arr_prop _ _ t ht, getProp_arr_prop _ _ t ht]
    | .vNull => rfl
    | .vUndef => rfl
    | .vBool b => rfl
    | .vNum n2 => rfl
    | .vStr str => rfl
  | .idx n, .idx m =>
    rw [hk, hq] at hstr
    simp only [keyAsString] at hstr
    have hnm : n ≠ m := fun he => hstr (by rw [he])
    match v with
    | .vObj fs => rw [setProp_obj_idx, getProp_obj_idx, getProp_obj_idx,
        fieldsGet_set_other fs (ntos n) (ntos m) w hstr]
    | .vArr es ps => rw [setProp_arr_idx, getProp_arr_idx, getProp_arr_idx,
        eget_eset_other es n m w hnm]
    | .vNull => rfl
    | .vUndef => rfl
    | .vBool b => rfl
    | .vNum n2 => rfl
    | .vStr str => rfl

theorem keyAsString_knorm_str (s : String) : keyAsString (knorm (.str s)) = s := by
  rw [knorm_str]
  match h : canonNat? s with
  | none => simp [keyAsString]
  | some n => simp [keyAsString, canonNat?_spelling s n h]

theorem knorm_str_ne_of_ne (k : String) (q : JKey)
    (h : k ≠ keyAsString (knorm q)) : knorm (.str k) ≠ knorm q := by
  intro he
  apply h
  rw [← he, keyAsString_knorm_str]

theorem fieldsGet_del_other (fs : Fields) (k q : String) (h : k ≠ q) :
    fieldsGet (fieldsDel fs k) q = fieldsGet fs q := by
  induction fs using fieldsInd with
  | h1 => rfl
  | h2 k2 v tl ih =>
    by_cases h2 : k2 = k
    · subst h2; simp [fieldsDel, fieldsGet, ih, h]
    · simp [fieldsDel, fieldsGet, h2, ih]

theorem fieldsGet_del_self (fs : Fields) (k : String) :
    fieldsGet (fieldsDel fs k) k = none := by
  induction fs using fieldsInd with
  | h1 => rfl
  | h2 k2 v tl ih =>
    by_cases h2 : k2 = k <;> simp [fieldsDel, fieldsGet, h2, ih]

theorem eget_edel_other (es : Elems) (n m : Nat) (h : n ≠ m) :
    eget (edel es n) m = eget es m := by
  induction n generalizing es m with
  | zero => cases es <;> cases m <;> simp_all [edel, eget]
  | succ n ih => cases es <;> cases m <;> simp_all [edel, eget]

theorem eget_edel_self (es : Elems) (n : Nat) : eget (edel es n) n = none := by
  induction n generalizing es with
  | zero => cases es <;> simp [edel, eget]
  | succ n ih => cases es <;> simp [edel, eget, ih]

theorem getProp_delProp_other (v : Value) (k q : JKey)
    (hne : knorm k ≠ knorm q) : getProp (delProp v k) q = getProp v q := by
  rw [← getProp_knorm _ q, ← getProp_knorm v q]
  have hkn := knorm_normal k
  have hqn := knorm_normal q
  have hstr := normal_keyAsString_inj (knorm k) (knorm q) hkn hqn hne
  unfold delProp
  match hk : knorm k, hq : knorm q with
  | .str s, .str t =>
    rw [hk, hq] at hstr; simp only [keyAsString] at hstr
    match v with
    | .vObj fs => rw [getProp_obj_str, getProp_obj_str, fieldsGet_del_other fs s t hstr]
    | .vArr es ps =>
      have ht := isNormalK_str_canon t (hq ▸ hqn)
      rw [getProp_arr_prop _ _ t ht, getProp_arr_prop _ _ t ht,
        fieldsGet_del_other ps s t hstr]
    | .vNull => rfl
    | .vUndef => rfl
    | .vBool b => rfl
    | .vNum n => rfl
    | .vStr str => rfl
  | .str s, .idx m =>
    rw [hk, hq] at hstr; simp only [keyAsString] at hstr
    match v with
    | .vObj fs => rw [getProp_obj_idx, getProp_obj_idx, fieldsGet_del_other fs s (ntos m) hstr]
    | .vArr es ps => rw [getProp_arr_idx, getProp_arr_idx]
    | .vNull => rfl
    | .vUndef => rfl
    | .vBool b => rfl
    | .vNum n => rfl
    | .vStr str => rfl
  | .idx n, .str t =>
    rw [hk, hq] at hstr; simp only [keyAsString] at hstr
    match v with
    | .vObj fs => rw [getProp_obj_str, getProp_obj_str, fieldsGet_del_other fs (ntos n) t hstr]
    | .vArr es ps =>
      have ht := isNormalK_str_canon t (hq ▸ hqn)
      rw [getProp_arr_prop _ _ t ht, getProp_arr_prop _ _ t ht]
    | .vNull => rfl
    | .vUndef => rfl
    | .vBool b => rfl
    | .vNum n2 => rfl
    | .vStr str => rfl
  | .idx n, .idx m =>
    rw [hk, hq] at hstr; simp only [keyAsString] at hstr
    have hnm : n ≠ m := fun he => hstr (by rw [he])
    match v with
    | .vObj fs => rw [getProp_obj_idx, getProp_obj_idx, fieldsGet_del_other fs (ntos n) (ntos m) hstr]
    | .vArr es ps => rw [getProp_arr_idx, getProp_arr_idx, eget_edel_other es n m hnm]
    | .vNull => rfl
    | .vUndef => rfl
    | .vBool b => rfl
    | .vNum n2 => rfl
    | .vStr str => rfl

theorem hasOwn_knorm (v : Value) (k : JKey) : hasOwn v (knorm k) = hasOwn v k := by
  unfold hasOwn
  rw [knorm_idem]

theorem delProp_knorm (v : Value) (k : JKey) : delProp v (knorm k) = delProp v k := by
  unfold delProp
  rw [knorm_idem]

theorem hasOwn_obj_idx (fs : Fields) (n : Nat) :
    hasOwn (.vObj fs) (.idx n) = fieldsHas fs (ntos n) := rfl

theorem hasOwn_arr_idx (es : Elems) (ps : Fields) (n : Nat) :
    hasOwn (.vArr es ps) (.idx n) = (eget es n).isSome := rfl

theorem hasOwn_arr_prop (es : Elems) (ps : Fields) (s : String)
    (h : canonNat? s = none) : hasOwn (.vArr es ps) (.str s) = fieldsHas ps s := by
  simp only [hasOwn, knorm_str, h]

theorem hasOwn_setProp_self (v : Value) (k : JKey) (w : Value)
    (h : isObjectJS v = true) : hasOwn (setProp v k w) k = true := by
  rw [← setProp_knorm, ← hasOwn_knorm _ k]
  have hkn := knorm_normal k
  match hk : knorm k with
  | .str s =>
    have hs := isNormalK_str_canon s (hk ▸ hkn)
    match v with
    | .vObj fs => rw [setProp_obj_str, hasOwn_obj_str]; simp [fieldsHas, fieldsGet_set_self]
    | .vArr es ps => rw [setProp_arr_prop _ _ _ _ hs, hasOwn_arr_prop _ _ _ hs]
                     simp [fieldsHas, fieldsGet_set_self]
    | .vNull => simp [isObjectJS] at h
    | .vUndef => simp [isObjectJS] at h
    | .vBool b => simp [isObjectJS] at h
    | .vNum n => simp [isObjectJS] at h
    | .vStr str => simp [isObjectJS] at h
  | .idx n =>
    match v with
    | .vObj fs => rw [setProp_obj_idx, hasOwn_obj_idx]; simp [fieldsHas, fieldsGet_set_self]
    | .vArr es ps => rw [setProp_arr_idx, hasOwn_arr_idx]; simp [eget_eset_self]
    | .vNull => simp [isObjectJS] at h
    | .vUndef => simp [isObjectJS] at h
    | .vBool b => simp [isObjectJS] at h
    | .vNum n2 => simp [isObjectJS] at h
    | .vStr str => simp [isObjectJS] at h

/-- Writing back the value read at an existing key is the identity. -/
theorem setProp_getProp_self (v : Value) (k : JKey)
    (h : hasOwn v k = true) : setProp v k (getProp v k) = v := by
  rw [← setProp_knorm, ← getProp_knorm]
  rw [← hasOwn_knorm] at h
  have hkn := knorm_normal k
  match hk : knorm k with
  | .str s =>
    rw [hk] at h
    have hs := isNormalK_str_canon s (hk ▸ hkn)
    match v with
    | .vObj fs =>
      rw [hasOwn_obj_str] at h
      rw [getProp_obj_str, setProp_obj_str]
      simp only [fieldsHas] at h
      match hg : fieldsGet fs s with
      | none => rw [hg] at h; simp at h
      | some w => simp [fieldsSet_get_self fs s w hg]
    | .vArr es ps =>
      rw [hasOwn_arr_prop _ _ _ hs] at h
      rw [getProp_arr_prop _ _ _ hs, setProp_arr_prop _ _ _ _ hs]
      simp only [fieldsHas] at h
      match hg : fieldsGet ps s with
      | none => rw [hg] at h; simp at h
      | some w => simp [fieldsSet_get_self ps s w hg]
    | .vNull => simp [hasOwn] at h
    | .vUndef => simp [hasOwn] at h
    | .vBool b => simp [hasOwn] at h
    | .vNum n => simp [hasOwn] at h
    | .vStr str => simp [hasOwn, knorm_str, hs] at h
  | .idx n =>
    rw [hk] at h
    match v with
    | .vObj fs =>
      rw [hasOwn_obj_idx] at h
      rw [getProp_obj_idx, setProp_obj_idx]
      simp only [fieldsHas] at h
      match hg : fieldsGet fs (ntos n) with
      | none => rw [hg] at h; simp at h
      | some w => simp [fieldsSet_get_self fs (ntos n) w hg]
    | .vArr es ps =>
      rw [hasOwn_arr_idx] at h
      rw [getProp_arr_idx, setProp_arr_idx]
      match hg : eget es n with
      | none => rw [hg] at h; simp at h
      | some w => simp [eset_get_self es n w hg]
    | .vNull => simp [hasOwn] at h
    | .vUndef => simp [hasOwn] at h
    | .vBool b => simp [hasOwn] at h
    | .vNum n2 => simp [hasOwn] at h
    | .vStr str => rfl

theorem hasOwn_setProp_other (v : Value) (k q : JKey) (w : Value)
    (hne : knorm k ≠ knorm q) : hasOwn (setProp v k w) q = hasOwn v q := by
  rw [← setProp_knorm, ← hasOwn_knorm _ q, ← hasOwn_knorm v q]
  have hkn := knorm_normal k
  have hqn := knorm_normal q
  have hstr := normal_keyAsString_inj (knorm k) (knorm q) hkn hqn hne
  match hk : knorm k, hq : knorm q with
  | .str s, .str t =>
    rw [hk, hq] at hstr; simp only [keyAsString] at hstr
    match v with
    | .vObj fs => rw [setProp_obj_str, hasOwn_obj_str, hasOwn_obj_str]
                  simp [fieldsHas, fieldsGet_set_other fs s t w hstr]
    | .vArr es ps =>
      have hs := isNormalK_str_canon s (hk ▸ hkn)
      have ht := isNormalK_str_canon t (hq ▸ hqn)
      rw [setProp_arr_prop _ _ _ _ hs, hasOwn_arr_prop _ _ _ ht, hasOwn_arr_prop _ _ _ ht]
      simp [fieldsHas, fieldsGet_set_other ps s t w hstr]
    | .vNull => rfl
    | .vUndef => rfl
    | .vBool b => rfl
    | .vNum n => rfl
    | .vStr str => rfl
  | .str s, .idx m =>
    rw [hk, hq] at hstr; simp only [keyAsString] at hstr
    match v with
    | .vObj fs => rw [setProp_obj_str, hasOwn_obj_idx, hasOwn_obj_idx]
                  simp [fieldsHas, fieldsGet_set_other fs s (ntos m) w hstr]
    | .vArr es ps =>
      have hs := isNormalK_str_canon s (hk ▸ hkn)
      rw [setProp_arr_prop _ _ _ _ hs, hasOwn_arr_idx, hasOwn_arr_idx]
    | .vNull => rfl
    | .vUndef => rfl
    | .vBool b => rfl
    | .vNum n => rfl
    | .vStr str => rfl
  | .idx n, .str t =>
    rw [hk, hq] at hstr; simp only [keyAsString] at hstr
    match v with
    | .vObj fs => rw [setProp_obj_idx, hasOwn_obj_str, hasOwn_obj_str]
                  simp [fieldsHas, fieldsGet_set_other fs (ntos n) t w hstr]
    | .vArr es ps =>
      have ht := isNormalK_str_canon t (hq ▸ hqn)
      rw [setProp_arr_idx, hasOwn_arr_prop _ _ _ ht, hasOwn_arr_prop _ _ _ ht]
    | .vNull => rfl
    | .vUndef => rfl
    | .vBool b => rfl
    | .vNum n2 => rfl
    | .vStr str => rfl
  | .idx n, .idx m =>
    rw [hk, hq] at hstr; simp only [keyAsString] at hstr
    have hnm : n ≠ m := fun he => hstr (by rw [he])
    match v with
    | .vObj fs => rw [setProp_obj_idx, hasOwn_obj_idx, hasOwn_obj_idx]
                  simp [fieldsHas, fieldsGet_set_other fs (ntos n) (ntos m) w hstr]
    | .vArr es ps => rw [setProp_arr_idx, hasOwn_arr_idx, hasOwn_arr_idx,
        eget_eset_other es n m w hnm]
    | .vNull => rfl
    | .vUndef => rfl
    | .vBool b => rfl
    | .vNum n2 => rfl
    | .vStr str => rfl

theorem hasOwn_delProp_other (v : Value) (k q : JKey)
    (hne : knorm k ≠ knorm q) : hasOwn (delProp v k) q = hasOwn v q := by
  rw [← delProp_knorm, ← hasOwn_knorm _ q, ← hasOwn_knorm v q]
  have hkn := knorm_normal k
  have hqn := knorm_normal q
  have hstr := normal_keyAsString_inj (knorm k) (knorm q) hkn hqn hne
  match hk : knorm k, hq : knorm q with
  | .str s, .str t =>
    rw [hk, hq] at hstr; simp only [keyAsString] at hstr
    match v with
    | .vObj fs => rw [delProp_obj_str, hasOwn_obj_str, hasOwn_obj_str]
                  simp [fieldsHas, fieldsGet_del_other fs s t hstr]
    | .vArr es ps =>
      have hs := isNormalK_str_canon s (hk ▸ hkn)
      have ht := isNormalK_str_canon t (hq ▸ hqn)
      rw [delProp_arr_prop _ _ _ hs, hasOwn_arr_prop _ _ _ ht, hasOwn_arr_prop _ _ _ ht]
      simp [fieldsHas, fieldsGet_del_other ps s t hstr]
    | .vNull => rfl
    | .vUndef => rfl
    | .vBool b => rfl
    | .vNum n => rfl
    | .vStr str => rfl
  | .str s, .idx m =>
    rw [hk, hq] at hstr; simp only [keyAsString] at hstr
    match v with
    | .vObj fs => rw [delProp_obj_str, hasOwn_obj_idx, hasOwn_obj_idx]
                  simp [fieldsHas, fieldsGet_del_other fs s (ntos m) hstr]
    | .vArr es ps =>
      have hs := isNormalK_str_canon s (hk ▸ hkn)
      rw [delProp_arr_prop _ _ _ hs, hasOwn_arr_idx, hasOwn_arr_idx]
    | .vNull => rfl
    | .vUndef => rfl
    | .vBool b => rfl
    | .vNum n => rfl
    | .vStr str => rfl
  | .idx n, .str t =>
    rw [hk, hq] at hstr; simp only [keyAsString] at hstr
    match v with
    | .vObj fs => rw [delProp_obj_idx, hasOwn_obj_str, hasOwn_obj_str]
                  simp [fieldsHas, fieldsGet_del_other fs (ntos n) t hstr]
    | .vArr es ps =>
      have ht := isNormalK_str_canon t (hq ▸ hqn)
      rw [delProp_arr_idx, hasOwn_arr_prop _ _ _ ht, hasOwn_arr_prop _ _ _ ht]
    | .vNull => rfl
    | .vUndef => rfl
    | .vBool b => rfl
    | .vNum n2 => rfl
    | .vStr str => rfl
  | .idx n, .idx m =>
    rw [hk, hq] at hstr; simp only [keyAsString] at hstr
    have hnm : n ≠ m := fun he => hstr (by rw [he])
    match v with
    | .vObj fs => rw [delProp_obj_idx, hasOwn_obj_idx, hasOwn_obj_idx]
                  simp [fieldsHas, fieldsGet_del_other fs (ntos n) (ntos m) hstr]
    | .vArr es ps => rw [delProp_arr_idx, hasOwn_arr_idx, hasOwn_arr_idx,
        eget_edel_other es n m hnm]
    | .vNull => rfl
    | .vUndef => rfl
    | .vBool b => rfl
    | .vNum n2 => rfl
    | .vStr str => rfl

/-! ## Key enumeration membership -/

theorem mem_fieldsKeys_iff (fs : Fields) (q : String) :
    q ∈ fieldsKeys fs ↔ fieldsHas fs q = true := by
  induction fs using fieldsInd with
  | h1 => simp [fieldsKeys, fieldsHas, fieldsGet]
  | h2 k v tl ih =>
    by_cases h : k = q
    · simp [fieldsKeys, fieldsHas, fieldsGet, h]
    · simp only [fieldsKeys, List.mem_cons, fieldsHas, fieldsGet, h, if_false]
      rw [← fieldsHas]
      constructor
      · rintro (hh | hm)
        · exact absurd hh.symm h
        · exact ih.mp hm
      · intro hf
        right
        exact ih.mpr hf

theorem mem_epresentFrom_iff (es : Elems) (i : Nat) (q : String) :
    q ∈ epresentFrom i es ↔ ∃ j, (eget es j).isSome ∧ q = ntos (i + j) := by
  induction es using elemsInd generalizing i with
  | h1 => simp [epresentFrom, eget]
  | h2 tl ih =>
    simp only [epresentFrom]
    rw [ih (i+1)]
    constructor
    · rintro ⟨j, hj, hq⟩
      exact ⟨j+1, by simpa [eget] using hj, by rw [hq]; congr 1 <;> omega⟩
    · rintro ⟨j, hj, hq⟩
      match j with
      | 0 => simp [eget] at hj
      | j+1 => exact ⟨j, by simpa [eget] using hj, by rw [hq]; congr 1 <;> omega⟩
  | h3 v tl ih =>
    simp only [epresentFrom, List.mem_cons]
    rw [ih (i+1)]
    constructor
    · rintro (hq | ⟨j, hj, hq⟩)
      · exact ⟨0, by simp [eget], by rw [hq]; congr 1 <;> omega⟩
      · exact ⟨j+1, by simpa [eget] using hj, by rw [hq]; congr 1 <;> omega⟩
    · rintro ⟨j, hj, hq⟩
      match j with
      | 0 => left; rw [hq]; congr 1 <;> omega
      | j+1 => right; exact ⟨j, by simpa [eget] using hj, by rw [hq]; congr 1 <;> omega⟩

/-- Named-property keys of an array are never index spellings; JavaScript
stores an index-spelled key as an element, so this holds of every value an
actual run can produce. -/
def propsWf : Fields → Bool
  | .nil => true
  | .cons k _ tl => (canonNat? k).isNone && propsWf tl

theorem propsWf_mem (ps : Fields) (q : String) (h : propsWf ps = true)
    (hm : q ∈ fieldsKeys ps) : canonNat? q = none := by
  induction ps using fieldsInd with
  | h1 => simp [fieldsKeys] at hm
  | h2 k v tl ih =>
    simp only [propsWf, Bool.and_eq_true] at h
    simp only [fieldsKeys, List.mem_cons] at hm
    match hm with
    | .inl he => subst he; exact Option.isNone_iff_eq_none.mp h.1
    | .inr hm => exact ih h.2 hm

theorem mem_objKeys_obj (fs : Fields) (q : String) :
    q ∈ objKeys (.vObj fs) ↔ hasOwn (.vObj fs) (.str q) = true := by
  rw [hasOwn_obj_str]
  exact mem_fieldsKeys_iff fs q

theorem hasOwn_arr_strIdx (es : Elems) (ps : Fields) (s : String) (n : Nat)
    (h : canonNat? s = some n) :
    hasOwn (.vArr es ps) (.str s) = (eget es n).isSome := by
  simp only [hasOwn, knorm_str, h]

theorem mem_objKeys_arr (es : Elems) (ps : Fields) (q : String)
    (hwf : propsWf ps = true) :
    q ∈ objKeys (.vArr es ps) ↔ hasOwn (.vArr es ps) (.str q) = true := by
  show q ∈ epresentFrom 0 es ++ fieldsKeys ps ↔ _
  rw [List.mem_append, mem_epresentFrom_iff, mem_fieldsKeys_iff]
  constructor
  · rintro (⟨j, hj, hq⟩ | hp)
    · rw [hq, hasOwn_arr_strIdx es ps _ (0 + j) (canonNat?_ntos _)]
      simpa using hj
    · have hc := propsWf_mem ps q hwf ((mem_fieldsKeys_iff ps q).mpr hp)
      rw [hasOwn_arr_prop _ _ _ hc]
      exact hp
  · intro h
    match hc : canonNat? q with
    | some n =>
      left
      refine ⟨n, ?_, by rw [← canonNat?_spelling q n hc]; congr 1 <;> omega⟩
      rw [hasOwn_arr_strIdx es ps q n hc] at h
      exact h
    | none =>
      right
      rw [hasOwn_arr_prop _ _ _ hc] at h
      exact h

/-! ## The strip loop -/

def stripStep (keep : List String) (w : Value) (k : String) : Value :=
  if keep.contains k then w else delProp w (.str k)

theorem stripKeys_eq_foldl (v : Value) (keep : List String) :
    stripKeys v keep = (objKeys v).foldl (stripStep keep) v := rfl

theorem isObjectJS_delProp (v : Value) (k : JKey) (h : isObjectJS v = true) :
    isObjectJS (delProp v k) = true := by
  match v with
  | .vObj fs => unfold delProp; match knorm k with
    | .str s => rfl
    | .idx n => rfl
  | .vArr es ps => unfold delProp; match knorm k with
    | .str s => rfl
    | .idx n => rfl

theorem isObjectJS_setProp (v : Value) (k : JKey) (w : Value) (h : isObjectJS v = true) :
    isObjectJS (setProp v k w) = true := by
  match v with
  | .vObj fs => unfold setProp; match knorm k with
    | .str s => rfl
    | .idx n => rfl
  | .vArr es ps => unfold setProp; match knorm k with
    | .str s => rfl
    | .idx n => rfl

/-- The named-property well-formedness of a value's top layer. -/
def pwfOf : Value → Bool
  | .vArr _ ps => propsWf ps
  | _ => true

theorem propsWf_set (ps : Fields) (s : String) (w : Value)
    (hs : canonNat? s = none) (h : propsWf ps = true) :
    propsWf (fieldsSet ps s w) = true := by
  induction ps using fieldsInd with
  | h1 => simp [fieldsSet, propsWf, hs]
  | h2 k v tl ih =>
    simp only [propsWf, Bool.and_eq_true] at h
    by_cases h2 : k = s <;> simp [fieldsSet, h2, propsWf, h.1, h.2, ih h.2, hs]

theorem propsWf_del (ps : Fields) (s : String) (h : propsWf ps = true) :
    propsWf (fieldsDel ps s) = true := by
  induction ps using fieldsInd with
  | h1 => simp [fieldsDel, propsWf]
  | h2 k v tl ih =>
    simp only [propsWf, Bool.and_eq_true] at h
    by_cases h2 : k = s <;> simp [fieldsDel, h2, propsWf, h.1, ih h.2]

theorem pwfOf_setProp (v : Value) (k : JKey) (w : Value) (h : pwfOf v = true) :
    pwfOf (setProp v k w) = true := by
  match v with
  | .vObj fs => unfold setProp; match knorm k with
    | .str s => rfl
    | .idx n => rfl
  | .vArr es ps =>
    rw [← setProp_knorm]
    have hkn := knorm_normal k
    match hk : knorm k with
    | .str s =>
      have hs := isNormalK_str_canon s (hk ▸ hkn)
      rw [setProp_arr_prop _ _ _ _ hs]
      exact propsWf_set ps s w hs h
    | .idx n => rw [setProp_arr_idx]; exact h
  | .vNull => exact h
  | .vUndef => exact h
  | .vBool b => exact h
  | .vNum n => exact h
  | .vStr s => exact h

theorem pwfOf_delProp (v : Value) (k : JKey) (h : pwfOf v = true) :
    pwfOf (delProp v k) = true := by
  match v with
  | .vObj fs => unfold delProp; match knorm k with
    | .str s => rfl
    | .idx n => rfl
  | .vArr es ps =>
    rw [← delProp_knorm]
    have hkn := knorm_normal k
    match hk : knorm k with
    | .str s =>
      have hs := isNormalK_str_canon s (hk ▸ hkn)
      rw [delProp_arr_prop _ _ _ hs]
      exact propsWf_del ps s h
    | .idx n => rw [delProp_arr_idx]; exact h
  | .vNull => exact h
  | .vUndef => exact h
  | .vBool b => exact h
  | .vNum n => exact h
  | .vStr s => exact h

theorem hasOwn_delProp_self (v : Value) (s : String) (h : isObjectJS v = true) :
    hasOwn (delProp v (.str s)) (.str s) = false := by
  match v with
  | .vObj fs =>
    rw [delProp_obj_str, hasOwn_obj_str]
    simp [fieldsHas, fieldsGet_del_self]
  | .vArr es ps =>
    match hc : canonNat? s with
    | some n =>
      rw [delProp_arr_strIdx _ _ _ _ hc, hasOwn_arr_strIdx _ _ _ _ hc]
      simp [eget_edel_self]
    | none =>
      rw [delProp_arr_prop _ _ _ hc, hasOwn_arr_prop _ _ _ hc]
      simp [fieldsHas, fieldsGet_del_self]

theorem knorm_str_ne_of_str_ne (k q : String) (h : k ≠ q) :
    knorm (.str k) ≠ knorm (.str q) :=
  fun he => h (knorm_str_inj k q he)

theorem stripStep_mem (keep : List String) (w : Value) (k : String)
    (h : keep.contains k = true) : stripStep keep w k = w := by
  unfold stripStep
  rw [h]
  simp

theorem stripStep_not (keep : List String) (w : Value) (k : String)
    (h : keep.contains k = false) : stripStep keep w k = delProp w (.str k) := by
  unfold stripStep
  rw [h]
  simp

theorem foldStrip_isObjectJS (keep : List String) (L : List String) (v : Value)
    (h : isObjectJS v = true) :
    isObjectJS (L.foldl (stripStep keep) v) = true := by
  induction L generalizing v with
  | nil => exact h
  | cons k L ih =>
    rw [List.foldl_cons]
    by_cases hk : keep.contains k
    · rw [stripStep_mem keep v k hk]; exact ih _ h
    · rw [stripStep_not keep v k (by simpa using hk)]
      exact ih _ (isObjectJS_delProp v (.str k) h)

theorem foldStrip_pwf (keep : List String) (L : List String) (v : Value)
    (h : pwfOf v = true) :
    pwfOf (L.foldl (stripStep keep) v) = true := by
  induction L generalizing v with
  | nil => exact h
  | cons k L ih =>
    rw [List.foldl_cons]
    by_cases hk : keep.contains k
    · rw [stripStep_mem keep v k hk]; exact ih _ h
    · rw [stripStep_not keep v k (by simpa using hk)]
      exact ih _ (pwfOf_delProp v (.str k) h)

theorem foldStrip_hasOwn_false (keep : List String) (L : List String) (v : Value)
    (q : String) (h : hasOwn v (.str q) = false) (ho : isObjectJS v = true) :
    hasOwn (L.foldl (stripStep keep) v) (.str q) = false := by
  induction L generalizing v with
  | nil => exact h
  | cons k L ih =>
    rw [List.foldl_cons]
    by_cases hk : keep.contains k
    · rw [stripStep_mem keep v k hk]; exact ih _ h ho
    · rw [stripStep_not keep v k (by simpa using hk)]
      by_cases hq : k = q
      · subst hq
        exact ih _ (hasOwn_delProp_self v k ho) (isObjectJS_delProp v (.str k) ho)
      · refine ih _ ?_ (isObjectJS_delProp v (.str k) ho)
        rw [hasOwn_delProp_other v (.str k) (.str q) (knorm_str_ne_of_str_ne k q hq)]
        exact h

theorem foldStrip_hasOwn_rev (keep : List String) (L : List String) (v : Value)
    (q : String) (ho : isObjectJS v = true)
    (h : hasOwn (L.foldl (stripStep keep) v) (.str q) = true) :
    hasOwn v (.str q) = true := by
  induction L generalizing v with
  | nil => exact h
  | cons k L ih =>
    rw [List.foldl_cons] at h
    by_cases hk : keep.contains k
    · rw [stripStep_mem keep v k hk] at h; exact ih _ ho h
    · rw [stripStep_not keep v k (by simpa using hk)] at h
      have h2 := ih _ (isObjectJS_delProp v (.str k) ho) h
      by_cases hq : k = q
      · subst hq
        rw [hasOwn_delProp_self v k ho] at h2
        exact absurd h2 (by simp)
      · rwa [hasOwn_delProp_other v (.str k) (.str q)
          (knorm_str_ne_of_str_ne k q hq)] at h2

theorem foldStrip_deleted (keep : List String) (L : List String) (v : Value)
    (q : String) (hq : q ∈ L) (hk : keep.contains q = false)
    (ho : isObjectJS v = true) :
    hasOwn (L.foldl (stripStep keep) v) (.str q) = false := by
  induction L generalizing v with
  | nil => simp at hq
  | cons k L ih =>
    rw [List.foldl_cons]
    by_cases hkk : keep.contains k
    · rw [stripStep_mem keep v k hkk]
      have hne : k ≠ q := fun he => by rw [he] at hkk; rw [hk] at hkk; simp at hkk
      rcases List.mem_cons.mp hq with he | hm
      · exact absurd he.symm hne
      · exact ih _ hm ho
    · rw [stripStep_not keep v k (by simpa using hkk)]
      by_cases hqk : k = q
      · subst hqk
        exact foldStrip_hasOwn_false keep L _ k (hasOwn_delProp_self v k ho)
          (isObjectJS_delProp v (.str k) ho)
      · rcases List.mem_cons.mp hq with he | hm
        · exact absurd he.symm hqk
        · exact ih _ hm (isObjectJS_delProp v (.str k) ho)

theorem foldStrip_getProp_frame (keep : List String) (L : List String) (v : Value)
    (q : JKey) (hq : keep.contains (keyAsString (knorm q)) = true) :
    getProp (L.foldl (stripStep keep) v) q = getProp v q := by
  induction L generalizing v with
  | nil => rfl
  | cons k L ih =>
    rw [List.foldl_cons]
    by_cases hk : keep.contains k
    · rw [stripStep_mem keep v k hk]; exact ih v
    · rw [stripStep_not keep v k (by simpa using hk)]
      rw [ih]
      apply getProp_delProp_other
      apply knorm_str_ne_of_ne
      intro he
      rw [he] at hk
      rw [hq] at hk
      simp at hk

theorem foldStrip_hasOwn_frame (keep : List String) (L : List String) (v : Value)
    (q : JKey) (hq : keep.contains (keyAsString (knorm q)) = true) :
    hasOwn (L.foldl (stripStep keep) v) q = hasOwn v q := by
  induction L generalizing v with
  | nil => rfl
  | cons k L ih =>
    rw [List.foldl_cons]
    by_cases hk : keep.contains k
    · rw [stripStep_mem keep v k hk]; exact ih v
    · rw [stripStep_not keep v k (by simpa using hk)]
      rw [ih]
      apply hasOwn_delProp_other
      apply knorm_str_ne_of_ne
      intro he
      rw [he] at hk
      rw [hq] at hk
      simp at hk

theorem foldStrip_noop (keep : List String) (L : List String) (v : Value)
    (h : ∀ k ∈ L, keep.contains k = true) :
    L.foldl (stripStep keep) v = v := by
  induction L generalizing v with
  | nil => rfl
  | cons k L ih =>
    rw [List.foldl_cons, stripStep_mem keep v k (h k (by simp))]
    exact ih v (fun k2 hk2 => h k2 (by simp [hk2]))

/-- Every key surviving the strip is a declared key. -/
theorem stripKeys_sub (v : Value) (keep : List String) (q : String)
    (ho : isObjectJS v = true) (hw : pwfOf v = true)
    (hm : q ∈ objKeys (stripKeys v keep)) : keep.contains q = true := by
  by_contra hq
  rw [stripKeys_eq_foldl] at hm
  have hmem : hasOwn (List.foldl (stripStep keep) v (objKeys v)) (.str q) = true := by
    match hr : List.foldl (stripStep keep) v (objKeys v) with
    | .vObj fs =>
      rw [hr] at hm
      exact (mem_objKeys_obj fs q).mp hm
    | .vArr es ps =>
      rw [hr] at hm
      have hpw : pwfOf (Value.vArr es ps) = true := hr ▸ foldStrip_pwf keep _ v hw
      exact (mem_objKeys_arr es ps q hpw).mp hm
    | .vNull | .vUndef | .vBool _ | .vNum _ | .vStr _ =>
      have := foldStrip_isObjectJS keep (objKeys v) v ho
      rw [hr] at this
      simp [isObjectJS] at this
  have hv : hasOwn v (.str q) = true := foldStrip_hasOwn_rev keep _ v q ho hmem
  have hvm : q ∈ objKeys v := by
    match v with
    | .vObj fs => exact (mem_objKeys_obj fs q).mpr hv
    | .vArr es ps => exact (mem_objKeys_arr es ps q hw).mpr hv
  have := foldStrip_deleted keep (objKeys v) v q hvm (by simpa using hq) ho
  rw [this] at hmem
  exact absurd hmem (by simp)

/-! ## The declared-fields pass -/

def sfToList : SchemaFields → List (String × SchemaV)
  | .fnil => []
  | .fcons k s tl => (k, s) :: sfToList tl

theorem schemaKeys_eq_map (fs : SchemaFields) :
    schemaKeys fs = (sfToList fs).map Prod.fst := by
  induction fs using schemaFieldsInd with
  | h1 => rfl
  | h2 k s tl ih => simp [schemaKeys, sfToList, ih]

theorem sfPass_isObjectJS (f : SchemaV → Value → Value) (fs : SchemaFields)
    (cur : Value) (h : isObjectJS cur = true) :
    isObjectJS (sfPass f fs cur) = true := by
  induction fs using schemaFieldsInd generalizing cur with
  | h1 => exact h
  | h2 k sub tl ih => exact ih _ (isObjectJS_setProp _ _ _ h)

theorem sfPass_pwf (f : SchemaV → Value → Value) (fs : SchemaFields)
    (cur : Value) (h : pwfOf cur = true) :
    pwfOf (sfPass f fs cur) = true := by
  induction fs using schemaFieldsInd generalizing cur with
  | h1 => exact h
  | h2 k sub tl ih => exact ih _ (pwfOf_setProp _ _ _ h)

theorem sfPass_isObjV (f : SchemaV → Value → Value) (fs : SchemaFields)
    (gs : Fields) : ∃ hs, sfPass f fs (.vObj gs) = .vObj hs := by
  induction fs using schemaFieldsInd generalizing gs with
  | h1 => exact ⟨gs, rfl⟩
  | h2 k sub tl ih =>
    show ∃ hs, sfPass f tl (setProp (.vObj gs) (.str k) _) = .vObj hs
    rw [setProp_obj_str]
    exact ih _

theorem sfPass_isArrV (f : SchemaV → Value → Value) (fs : SchemaFields)
    (es : Elems) (ps : Fields) :
    ∃ es2 ps2, sfPass f fs (.vArr es ps) = .vArr es2 ps2 := by
  induction fs using schemaFieldsInd generalizing es ps with
  | h1 => exact ⟨es, ps, rfl⟩
  | h2 k sub tl ih =>
    show ∃ es2 ps2, sfPass f tl (setProp (.vArr es ps) (.str k) _) = .vArr es2 ps2
    obtain ⟨es1, ps1, he⟩ := setProp_isArrV es ps (.str k) _
    rw [he]
    exact ih _ _

/-- The pass does not touch keys outside the declared list. -/
theorem sfPass_getProp_frame (f : SchemaV → Value → Value) (fs : SchemaFields)
    (cur : Value) (q : JKey)
    (h : (schemaKeys fs).contains (keyAsString (knorm q)) = false) :
    getProp (sfPass f fs cur) q = getProp cur q := by
  induction fs using schemaFieldsInd generalizing cur with
  | h1 => rfl
  | h2 k sub tl ih =>
    simp only [schemaKeys, List.contains_cons, Bool.or_eq_false_iff] at h
    show getProp (sfPass f tl (setProp cur (.str k) _)) q = getProp cur q
    rw [ih _ (by simpa using h.2)]
    apply getProp_setProp_other
    apply knorm_str_ne_of_ne
    intro he
    rw [he] at h
    simpa using h.1

theorem sfPass_hasOwn_frame (f : SchemaV → Value → Value) (fs : SchemaFields)
    (cur : Value) (q : JKey)
    (h : (schemaKeys fs).contains (keyAsString (knorm q)) = false) :
    hasOwn (sfPass f fs cur) q = hasOwn cur q := by
  induction fs using schemaFieldsInd generalizing cur with
  | h1 => rfl
  | h2 k sub tl ih =>
    simp only [schemaKeys, List.contains_cons, Bool.or_eq_false_iff] at h
    show hasOwn (sfPass f tl (setProp cur (.str k) _)) q = hasOwn cur q
    rw [ih _ (by simpa using h.2)]
    apply hasOwn_setProp_other
    apply knorm_str_ne_of_ne
    intro he
    rw [he] at h
    simpa using h.1

/-- After the pass, a declared key holds the image under f of what the
base held there (for a schema whose declared keys are not repeated). -/
theorem sfPass_getProp_decl (f : SchemaV → Value → Value) (fs : SchemaFields)
    (cur : Value) (k : String) (sub : SchemaV)
    (hnd : (schemaKeys fs).Nodup) (hget : sfGet fs k = some sub)
    (ho : isObjectJS cur = true) :
    getProp (sfPass f fs cur) (.str k) = f sub (getProp cur (.str k)) := by
  induction fs using schemaFieldsInd generalizing cur with
  | h1 => simp [sfGet] at hget
  | h2 k1 sub1 tl ih =>
    simp only [schemaKeys, List.nodup_cons] at hnd
    by_cases hk : k1 = k
    · subst hk
      simp only [sfGet, if_pos rfl] at hget
      have hsub : sub1 = sub := Option.some_inj.mp hget
      subst hsub
      show getProp (sfPass f tl (setProp cur (.str k1) (f sub1 (getProp cur (.str k1))))) (.str k1) = _
      rw [sfPass_getProp_frame f tl _ (.str k1)
        (by rw [keyAsString_knorm_str]; simpa using hnd.1)]
      rw [getProp_setProp_self _ _ _ ho]
    · simp only [sfGet, hk, if_false] at hget
      show getProp (sfPass f tl (setProp cur (.str k1) _)) (.str k) = _
      rw [ih _ hnd.2 hget (isObjectJS_setProp _ _ _ ho)]
      congr 1
      apply getProp_setProp_other
      apply knorm_str_ne_of_ne
      rw [keyAsString_knorm_str]
      exact hk

/-- After the pass, every declared key is present. -/
theorem sfPass_hasOwn_decl (f : SchemaV → Value → Value) (fs : SchemaFields)
    (cur : Value) (k : String)
    (hk : (schemaKeys fs).contains k = true)
    (ho : isObjectJS cur = true) :
    hasOwn (sfPass f fs cur) (.str k) = true := by
  induction fs using schemaFieldsInd generalizing cur with
  | h1 => simp [schemaKeys] at hk
  | h2 k1 sub1 tl ih =>
    show hasOwn (sfPass f tl (setProp cur (.str k1) _)) (.str k) = true
    by_cases hmem : (schemaKeys tl).contains k
    · exact ih _ hmem (isObjectJS_setProp _ _ _ ho)
    · have hk1 : k1 = k := by
        simp only [schemaKeys, List.contains_cons, Bool.or_eq_true] at hk
        rcases hk with h1 | h2
        · exact (beq_iff_eq.mp h1).symm
        · exact absurd h2 (by simpa using hmem)
      subst hk1
      rw [sfPass_hasOwn_frame f tl _ (.str k1)
        (by rw [keyAsString_knorm_str]; simpa using hmem)]
      exact hasOwn_setProp_self cur (.str k1) _ ho

/-- When every declared key already holds a fixed point of its transform,
the pass is the identity. -/
theorem sfPass_id (f : SchemaV → Value → Value) (fs : SchemaFields) (cur : Value)
    (h : ∀ p ∈ sfToList fs, hasOwn cur (.str p.1) = true ∧
      f p.2 (getProp cur (.str p.1)) = getProp cur (.str p.1)) :
    sfPass f fs cur = cur := by
  induction fs using schemaFieldsInd generalizing cur with
  | h1 => rfl
  | h2 k sub tl ih =>
    have hk := h (k, sub) (by simp [sfToList])
    show sfPass f tl (setProp cur (.str k) (f sub (getProp cur (.str k)))) = cur
    rw [hk.2, setProp_getProp_self cur (.str k) hk.1]
    exact ih cur (fun p hp => h p (by simp [sfToList, hp]))

theorem stripKeys_noop (v : Value) (keep : List String)
    (h : ∀ k ∈ objKeys v, keep.contains k = true) :
    stripKeys v keep = v := by
  rw [stripKeys_eq_foldl]
  exact foldStrip_noop keep (objKeys v) v h

theorem sfGet_of_mem_nodup (fs : SchemaFields) (k : String) (sub : SchemaV)
    (hm : (k, sub) ∈ sfToList fs) (hnd : (schemaKeys fs).Nodup) :
    sfGet fs k = some sub := by
  induction fs using schemaFieldsInd with
  | h1 => simp [sfToList] at hm
  | h2 k1 sub1 tl ih =>
    simp only [schemaKeys, List.nodup_cons] at hnd
    simp only [sfToList, List.mem_cons] at hm
    rcases hm with he | hm
    · rw [Prod.mk.injEq] at he
      simp [sfGet, he.1.symm, he.2]
    · have hk : k1 ≠ k := by
        intro he2
        apply hnd.1
        rw [he2, schemaKeys_eq_map]
        exact List.mem_map_of_mem Prod.fst hm
      simp [sfGet, hk, ih hm hnd.2]

/-! ## The array-branch loop -/

theorem arrPass_frame (f : Value → Value) (i m : Nat) (es : Elems) (j : Nat)
    (h : j < i ∨ i + m ≤ j) : eget (arrPass f i m es) j = eget es j := by
  induction m generalizing i es with
  | zero => rfl
  | succ m ih =>
    show eget (arrPass f (i+1) m _) j = _
    rw [ih (i+1) _ (by omega), eget_eset_other _ _ _ _ (by omega)]

theorem arrPass_get_in (f : Value → Value) (i m : Nat) (es : Elems) (j : Nat)
    (hj1 : i ≤ j) (hj2 : j < i + m) :
    eget (arrPass f i m es) j = some (f ((eget es j).getD .vUndef)) := by
  induction m generalizing i es with
  | zero => omega
  | succ m ih =>
    show eget (arrPass f (i+1) m (eset es i (f ((eget es i).getD .vUndef)))) j = _
    by_cases hji : j = i
    · rw [arrPass_frame f (i+1) m _ j (by omega)]
      rw [hji, eget_eset_self]
    · rw [ih (i+1) _ (by omega) (by omega), eget_eset_other _ _ _ _ (by omega)]

theorem arrPass_elen (f : Value → Value) (i m : Nat) (es : Elems)
    (h : i + m ≤ elen es) : elen (arrPass f i m es) = elen es := by
  induction m generalizing i es with
  | zero => rfl
  | succ m ih =>
    show elen (arrPass f (i+1) m (eset es i _)) = _
    rw [ih (i+1) _ (by rw [elen_eset_lt _ _ _ (by omega)]; omega),
      elen_eset_lt _ _ _ (by omega)]

/-- When every index in range holds a fixed point, the loop is the
identity. -/
theorem arrPass_id (f : Value → Value) (i m : Nat) (es : Elems)
    (h : ∀ j, i ≤ j → j < i + m → ∃ w, eget es j = some w ∧ f w = w) :
    arrPass f i m es = es := by
  induction m generalizing i es with
  | zero => rfl
  | succ m ih =>
    obtain ⟨w, hw, hfw⟩ := h i (le_refl i) (by omega)
    show arrPass f (i+1) m (eset es i (f ((eget es i).getD .vUndef))) = es
    rw [hw]
    show arrPass f (i+1) m (eset es i (f w)) = es
    rw [hfw, eset_get_self es i w hw]
    exact ih (i+1) es (fun j hj1 hj2 => h j (by omega) (by omega))

/-! ## Deep well-formedness of values and schemas

A JavaScript engine can only produce arrays whose named-property keys are
not index spellings; wfVal states that at every depth. JavaScript object
literals hold each key once; wfSch states that for every object
descriptor's field table and for a whole schema.
-/

mutual
def wfVal : Value → Bool
  | .vArr es ps => propsWf ps && wfEls es && wfFds ps
  | .vObj fs => wfFds fs
  | _ => true
def wfEls : Elems → Bool
  | .nil => true
  | .hole tl => wfEls tl
  | .cons v tl => wfVal v && wfEls tl
def wfFds : Fields → Bool
  | .nil => true
  | .cons _ v tl => wfVal v && wfFds tl
end

def strNodup : List String → Bool
  | [] => true
  | x :: xs => !xs.contains x && strNodup xs

theorem strNodup_iff (l : List String) : strNodup l = true ↔ l.Nodup := by
  induction l with
  | nil => simp [strNodup]
  | cons x xs ih => simp [strNodup, ih, List.nodup_cons]

mutual
def wfSch : SchemaV → Bool
  | .sArr o => wfSch o
  | .sMap o => wfSch o
  | .sObj fs => strNodup (schemaKeys fs) && wfSchFds fs
  | _ => true
def wfSchFds : SchemaFields → Bool
  | .fnil => true
  | .fcons _ s tl => wfSch s && wfSchFds tl
end

theorem wfSch_of_mem (fs : SchemaFields) (p : String × SchemaV)
    (hm : p ∈ sfToList fs) (h : wfSchFds fs = true) : wfSch p.2 = true := by
  induction fs using schemaFieldsInd with
  | h1 => simp [sfToList] at hm
  | h2 k s tl ih =>
    simp only [wfSchFds, Bool.and_eq_true] at h
    simp only [sfToList, List.mem_cons] at hm
    rcases hm with he | hm
    · rw [he]; exact h.1
    · exact ih hm h.2

theorem wfVal_fieldsGet (fs : Fields) (k : String) (w : Value)
    (h : wfFds fs = true) (hg : fieldsGet fs k = some w) : wfVal w = true := by
  induction fs using fieldsInd with
  | h1 => simp [fieldsGet] at hg
  | h2 k1 v tl ih =>
    simp only [wfFds, Bool.and_eq_true] at h
    by_cases hk : k1 = k
    · simp only [fieldsGet, hk, if_pos rfl] at hg
      rw [← Option.some_inj.mp hg]
      exact h.1
    · simp only [fieldsGet, hk, if_false] at hg
      exact ih h.2 hg

theorem wfVal_eget (es : Elems) (n : Nat) (w : Value)
    (h : wfEls es = true) (hg : eget es n = some w) : wfVal w = true := by
  induction n generalizing es with
  | zero =>
    match es with
    | .nil => simp [eget] at hg
    | .hole tl => simp [eget] at hg
    | .cons v tl =>
      simp only [eget] at hg
      simp only [wfEls, Bool.and_eq_true] at h
      rw [← Option.some_inj.mp hg]
      exact h.1
  | succ n ih =>
    match es with
    | .nil => simp [eget] at hg
    | .hole tl => exact ih tl (by simpa [wfEls] using h) hg
    | .cons v tl =>
      simp only [wfEls, Bool.and_eq_true] at h
      exact ih tl h.2 hg

/-- Any value read out of a well-formed value is well-formed. -/
theorem wfVal_getProp (v : Value) (k : JKey) (h : wfVal v = true) :
    wfVal (getProp v k) = true := by
  match v with
  | .vObj fs =>
    rw [← getProp_knorm]
    match knorm k with
    | .str s =>
      rw [getProp_obj_str]
      match hg : fieldsGet fs s with
      | none => decide
      | some w => simpa using wfVal_fieldsGet fs s w (by simpa [wfVal] using h) hg
    | .idx n =>
      rw [getProp_obj_idx]
      match hg : fieldsGet fs (ntos n) with
      | none => decide
      | some w => simpa using wfVal_fieldsGet fs (ntos n) w (by simpa [wfVal] using h) hg
  | .vArr es ps =>
    simp only [wfVal, Bool.and_eq_true] at h
    rw [← getProp_knorm]
    have hkn := knorm_normal k
    match hk : knorm k with
    | .str s =>
      have hs := isNormalK_str_canon s (hk ▸ hkn)
      rw [getProp_arr_prop _ _ _ hs]
      match hg : fieldsGet ps s with
      | none => decide
      | some w => simpa using wfVal_fieldsGet ps s w h.2 hg
    | .idx n =>
      rw [getProp_arr_idx]
      match hg : eget es n with
      | none => decide
      | some w => simpa using wfVal_eget es n w h.1.2 hg
  | .vNull => unfold getProp; match knorm k with
    | .str s => rfl
    | .idx n => rfl
  | .vUndef => unfold getProp; match knorm k with
    | .str s => rfl
    | .idx n => rfl
  | .vBool b => unfold getProp; match knorm k with
    | .str s => rfl
    | .idx n => rfl
  | .vNum n2 => unfold getProp; match knorm k with
    | .str s => rfl
    | .idx n => rfl
  | .vStr str =>
    unfold getProp
    match knorm k with
    | .str s => rfl
    | .idx n =>
      by_cases hlt : n < str.length <;> simp [hlt] <;> rfl

/-! ## Reconciler unfolding and bridging lemmas -/

theorem fixAtF_prim (n : Nat) (sch : SchemaV) (v : Value)
    (h : isPrimitiveSchema sch = true) :
    fixAtF (n+1) sch v =
      if primitiveTypeDoesNotMatch sch v then defaultOf sch else v := by
  match sch with
  | .sStr d l => rfl
  | .sStrOpt d l => rfl
  | .sNum d l => rfl
  | .sNumOpt d l => rfl
  | .sStrNum d l => rfl
  | .sBool d l => rfl

theorem fixAtF_arr_arr (n : Nat) (of : SchemaV) (es : Elems) (ps : Fields) :
    fixAtF (n+1) (.sArr of) (.vArr es ps)
      = .vArr (arrPass (fixAtF n of) 0 (elen es) es) ps := rfl

theorem fixAtF_arr_other (n : Nat) (of : SchemaV) (v : Value)
    (h : isArrV v = false) :
    fixAtF (n+1) (.sArr of) v = .vArr .nil .nil := by
  match v with
  | .vNull => rfl
  | .vUndef => rfl
  | .vBool b => rfl
  | .vNum n2 => rfl
  | .vStr s => rfl
  | .vObj fs => rfl

theorem fixAtF_map_obj (n : Nat) (of : SchemaV) (fs : Fields) :
    fixAtF (n+1) (.sMap of) (.vObj fs) = .vObj (fmapVals (fixAtF n of) fs) := rfl

theorem fixAtF_map_other (n : Nat) (of : SchemaV) (v : Value)
    (h : isObjV v = false) :
    fixAtF (n+1) (.sMap of) v = .vObj .nil := by
  match v with
  | .vNull => rfl
  | .vUndef => rfl
  | .vBool b => rfl
  | .vNum n2 => rfl
  | .vStr s => rfl
  | .vArr es ps => rfl

theorem fixAtF_obj (n : Nat) (fields : SchemaFields) (v : Value) :
    fixAtF (n+1) (.sObj fields) v
      = stripKeys (sfPass (fixAtF n) fields (if isObjectJS v then v else .vObj .nil))
          (schemaKeys fields) := rfl

theorem primMismatch_defaultOf (sch : SchemaV) (h : isPrimitiveSchema sch = true) :
    primitiveTypeDoesNotMatch sch (defaultOf sch) = false := by
  match sch with
  | .sStr d l => rfl
  | .sStrOpt (some d) l => rfl
  | .sStrOpt none l => rfl
  | .sNum d l => rfl
  | .sNumOpt (some d) l => rfl
  | .sNumOpt none l => rfl
  | .sStrNum (.inl d) l => rfl
  | .sStrNum (.inr d) l => rfl
  | .sBool d l => rfl

theorem setProp_nonobj (v : Value) (k : JKey) (w : Value)
    (h : isObjectJS v = false) : setProp v k w = v := by
  match v with
  | .vNull => unfold setProp; match knorm k with
    | .str s => rfl
    | .idx n => rfl
  | .vUndef => unfold setProp; match knorm k with
    | .str s => rfl
    | .idx n => rfl
  | .vBool b => unfold setProp; match knorm k with
    | .str s => rfl
    | .idx n => rfl
  | .vNum n2 => unfold setProp; match knorm k with
    | .str s => rfl
    | .idx n => rfl
  | .vStr s => unfold setProp; match knorm k with
    | .str s2 => rfl
    | .idx n => rfl

theorem getProp_of_not_hasOwn (v : Value) (k : JKey) (h : hasOwn v k = false) :
    getProp v k = .vUndef := by
  rw [← getProp_knorm]
  rw [← hasOwn_knorm] at h
  have hkn := knorm_normal k
  match hk : knorm k with
  | .str s =>
    rw [hk] at h
    have hs := isNormalK_str_canon s (hk ▸ hkn)
    match v with
    | .vObj fs =>
      rw [hasOwn_obj_str] at h
      rw [getProp_obj_str]
      simp only [fieldsHas] at h
      match hg : fieldsGet fs s with
      | none => rfl
      | some w => rw [hg] at h; simp at h
    | .vArr es ps =>
      rw [hasOwn_arr_prop _ _ _ hs] at h
      rw [getProp_arr_prop _ _ _ hs]
      simp only [fieldsHas] at h
      match hg : fieldsGet ps s with
      | none => rfl
      | some w => rw [hg] at h; simp at h
    | .vNull => unfold getProp; rw [knorm_str, hs]
    | .vUndef => unfold getProp; rw [knorm_str, hs]
    | .vBool b => unfold getProp; rw [knorm_str, hs]
    | .vNum n2 => unfold getProp; rw [knorm_str, hs]
    | .vStr str => unfold getProp; rw [knorm_str, hs]
  | .idx n =>
    rw [hk] at h
    match v with
    | .vObj fs =>
      rw [hasOwn_obj_idx] at h
      rw [getProp_obj_idx]
      simp only [fieldsHas] at h
      match hg : fieldsGet fs (ntos n) with
      | none => rfl
      | some w => rw [hg] at h; simp at h
    | .vArr es ps =>
      rw [hasOwn_arr_idx] at h
      rw [getProp_arr_idx]
      match hg : eget es n with
      | none => rfl
      | some w => rw [hg] at h; simp at h
    | .vNull => rfl
    | .vUndef => rfl
    | .vBool b => rfl
    | .vNum n2 => rfl
    | .vStr str =>
      rw [show hasOwn (Value.vStr str) (JKey.idx n) = decide (n < str.length) from rfl] at h
      simp only [decide_eq_false_iff_not] at h
      show (if n < str.length then Value.vStr (String.singleton (str.toList.getD n ' '))
        else Value.vUndef) = Value.vUndef
      rw [if_neg h]

/-- The add-missing-key step installs a value the switch treats exactly
as it treats an absent (undefined) one. -/
theorem fixAtF_initVal (n : Nat) (sch : SchemaV) :
    fixAtF (n+1) sch (initVal sch) = fixAtF (n+1) sch .vUndef := by
  match sch with
  | .sStr d l => rfl
  | .sStrOpt d l =>
    rw [fixAtF_prim _ _ _ (by rfl), fixAtF_prim _ _ _ (by rfl)]
    rw [show initVal (SchemaV.sStrOpt d l) = defaultOf (SchemaV.sStrOpt d l) from rfl]
    rw [primMismatch_defaultOf (.sStrOpt d l) (by rfl)]
    rw [show primitiveTypeDoesNotMatch (SchemaV.sStrOpt d l) Value.vUndef = true from rfl]
    simp
  | .sNum d l => rfl
  | .sNumOpt d l =>
    rw [fixAtF_prim _ _ _ (by rfl), fixAtF_prim _ _ _ (by rfl)]
    rw [show initVal (SchemaV.sNumOpt d l) = defaultOf (SchemaV.sNumOpt d l) from rfl]
    rw [primMismatch_defaultOf (.sNumOpt d l) (by rfl)]
    rw [show primitiveTypeDoesNotMatch (SchemaV.sNumOpt d l) Value.vUndef = true from rfl]
    simp
  | .sStrNum d l =>
    rw [fixAtF_prim _ _ _ (by rfl), fixAtF_prim _ _ _ (by rfl)]
    rw [show initVal (SchemaV.sStrNum d l) = defaultOf (SchemaV.sStrNum d l) from rfl]
    rw [primMismatch_defaultOf (.sStrNum d l) (by rfl)]
    rw [show primitiveTypeDoesNotMatch (SchemaV.sStrNum d l) Value.vUndef = true from rfl]
    simp
  | .sBool d l => rfl
  | .sArr of => rfl
  | .sMap of => rfl
  | .sObj fields => rfl

/-- checkTypeMatching as read-transform-write: the add-missing-key step
is absorbed by the switch. -/
theorem checkTypeMatchingF_eq (n : Nat) (obj : Value) (key : JKey) (sch : SchemaV)
    (hn : 1 ≤ n) :
    checkTypeMatchingF n obj key sch
      = setProp obj key (fixAtF n sch (getProp obj key)) := by
  obtain ⟨m, rfl⟩ : ∃ m, n = m + 1 := ⟨n - 1, by omega⟩
  unfold checkTypeMatchingF
  by_cases hadd : !isArrV obj && !hasOwn obj key
  · rw [if_pos hadd]
    simp only [Bool.and_eq_true, Bool.not_eq_true'] at hadd
    match obj with
    | .vObj fs =>
      show setProp (setProp (Value.vObj fs) key (initVal sch)) key
          (fixAtF (m+1) sch (getProp (setProp (Value.vObj fs) key (initVal sch)) key)) = _
      rw [getProp_setProp_self _ _ _ (by rfl), setProp_setProp_self,
        fixAtF_initVal, getProp_of_not_hasOwn _ _ hadd.2]
    | .vArr es ps => simp [isArrV] at hadd
    | .vNull =>
      rw [setProp_nonobj _ _ _ (by rfl)]
      rw [setProp_nonobj _ _ _ (by rfl), setProp_nonobj _ _ _ (by rfl)]
    | .vUndef =>
      rw [setProp_nonobj _ _ _ (by rfl)]
      rw [setProp_nonobj _ _ _ (by rfl), setProp_nonobj _ _ _ (by rfl)]
    | .vBool b =>
      rw [setProp_nonobj _ _ _ (by rfl)]
      rw [setProp_nonobj _ _ _ (by rfl), setProp_nonobj _ _ _ (by rfl)]
    | .vNum n2 =>
      rw [setProp_nonobj _ _ _ (by rfl)]
      rw [setProp_nonobj _ _ _ (by rfl), setProp_nonobj _ _ _ (by rfl)]
    | .vStr s =>
      rw [setProp_nonobj _ _ _ (by rfl)]
      rw [setProp_nonobj _ _ _ (by rfl), setProp_nonobj _ _ _ (by rfl)]
  · rw [if_neg hadd]

/-- cleanUp is the declared-fields pass followed by the strip. -/
theorem sfPassTop_eq (n : Nat) (hn : 1 ≤ n) : ∀ (sch : SchemaFields) (d : Value),
    cleanUpF.sfPassTop n sch d = sfPass (fixAtF n) sch d := by
  intro sch
  induction sch using schemaFieldsInd with
  | h1 => intro d; rfl
  | h2 k sub tl ih =>
    intro d
    show cleanUpF.sfPassTop n tl (checkTypeMatchingF n d (.str k) sub) = _
    rw [checkTypeMatchingF_eq n d (.str k) sub hn]
    exact ih _

theorem cleanUpF_eq (n : Nat) (sch : SchemaFields) (d : Value) (hn : 1 ≤ n) :
    cleanUpF n sch d = stripKeys (sfPass (fixAtF n) sch d) (schemaKeys sch) := by
  show stripKeys (cleanUpF.sfPassTop n sch d) (schemaKeys sch) = _
  rw [sfPassTop_eq n hn sch d]

/-! ## Idempotence of the reconciler -/

theorem one_le_ssize (sch : SchemaV) : 1 ≤ ssize sch := by
  match sch with
  | .sStr _ _ | .sStrOpt _ _ | .sNum _ _ | .sNumOpt _ _ | .sStrNum _ _ | .sBool _ _ =>
    exact Nat.le_refl 1
  | .sArr o => exact Nat.le_add_right 1 (ssize o)
  | .sMap o => exact Nat.le_add_right 1 (ssize o)
  | .sObj fs => exact Nat.le_add_right 1 (sfsize fs)

theorem ssize_le_of_mem (fs : SchemaFields) (k : String) (sub : SchemaV)
    (hm : (k, sub) ∈ sfToList fs) : ssize sub ≤ sfsize fs := by
  induction fs using schemaFieldsInd with
  | h1 => simp [sfToList] at hm
  | h2 k1 s1 tl ih =>
    simp only [sfToList, List.mem_cons] at hm
    show ssize sub ≤ ssize s1 + sfsize tl
    rcases hm with he | hm
    · rw [Prod.mk.injEq] at he
      rw [he.2]
      omega
    · have := ih hm
      omega

theorem pwfOf_of_wfVal (v : Value) (h : wfVal v = true) : pwfOf v = true := by
  match v with
  | .vArr es ps =>
    simp only [wfVal, Bool.and_eq_true] at h
    exact h.1.1
  | .vObj _ => rfl
  | .vNull => rfl
  | .vUndef => rfl
  | .vBool _ => rfl
  | .vNum _ => rfl
  | .vStr _ => rfl

theorem delProp_nonobj (v : Value) (k : JKey) (h : isObjectJS v = false) :
    delProp v k = v := by
  match v with
  | .vNull => unfold delProp; match knorm k with
    | .str s => rfl
    | .idx n => rfl
  | .vUndef => unfold delProp; match knorm k with
    | .str s => rfl
    | .idx n => rfl
  | .vBool b => unfold delProp; match knorm k with
    | .str s => rfl
    | .idx n => rfl
  | .vNum n2 => unfold delProp; match knorm k with
    | .str s => rfl
    | .idx n => rfl
  | .vStr s => unfold delProp; match knorm k with
    | .str s2 => rfl
    | .idx n => rfl

theorem sfPass_nonobj (f : SchemaV → Value → Value) (fs : SchemaFields) (cur : Value)
    (h : isObjectJS cur = false) : sfPass f fs cur = cur := by
  induction fs using schemaFieldsInd with
  | h1 => rfl
  | h2 k sub tl ih =>
    show sfPass f tl (setProp cur (.str k) _) = cur
    rw [setProp_nonobj _ _ _ h]
    exact ih

theorem stripKeys_nonobj (v : Value) (keep : List String)
    (h : isObjectJS v = false) : stripKeys v keep = v := by
  rw [stripKeys_eq_foldl]
  induction objKeys v with
  | nil => rfl
  | cons k L ih =>
    rw [List.foldl_cons]
    have hs : stripStep keep v k = v := by
      unfold stripStep
      by_cases hk : keep.contains k = true
      · rw [if_pos hk]
      · rw [if_neg hk]
        exact delProp_nonobj v _ h
    rw [hs]
    exact ih

theorem fixAtF_idem_prim (m : Nat) (sch : SchemaV) (v : Value)
    (hp : isPrimitiveSchema sch = true) :
    fixAtF (m+1) sch (fixAtF (m+1) sch v) = fixAtF (m+1) sch v := by
  rw [fixAtF_prim m sch v hp]
  by_cases hpm : primitiveTypeDoesNotMatch sch v = true
  · rw [if_pos hpm, fixAtF_prim m sch _ hp, primMismatch_defaultOf sch hp]
    simp
  · rw [if_neg hpm, fixAtF_prim m sch v hp, if_neg hpm]

theorem fixAtF_idem_arr (m : Nat) (of : SchemaV) (v : Value)
    (ih : ∀ s w, ssize s ≤ m → wfSch s = true → wfVal w = true →
      fixAtF m s (fixAtF m s w) = fixAtF m s w)
    (hof : ssize of ≤ m) (hwof : wfSch of = true) (hwv : wfVal v = true) :
    fixAtF (m+1) (.sArr of) (fixAtF (m+1) (.sArr of) v)
      = fixAtF (m+1) (.sArr of) v := by
  match v with
  | .vArr es ps =>
    have hwe : wfEls es = true := by
      simp only [wfVal, Bool.and_eq_true] at hwv
      exact hwv.1.2
    rw [fixAtF_arr_arr, fixAtF_arr_arr]
    have hlen : elen (arrPass (fixAtF m of) 0 (elen es) es) = elen es :=
      arrPass_elen _ 0 (elen es) es (by omega)
    rw [hlen]
    congr 1
    apply arrPass_id
    intro j hj1 hj2
    refine ⟨fixAtF m of ((eget es j).getD .vUndef),
      arrPass_get_in _ 0 (elen es) es j hj1 (by omega), ?_⟩
    apply ih of _ hof hwof
    cases hg : eget es j with
    | none => rfl
    | some u => exact wfVal_eget es j u hwe hg
  | .vNull => rfl
  | .vUndef => rfl
  | .vBool _ => rfl
  | .vNum _ => rfl
  | .vStr _ => rfl
  | .vObj _ => rfl

theorem fixAtF_idem_map (m : Nat) (of : SchemaV) (v : Value)
    (ih : ∀ s w, ssize s ≤ m → wfSch s = true → wfVal w = true →
      fixAtF m s (fixAtF m s w) = fixAtF m s w)
    (hof : ssize of ≤ m) (hwof : wfSch of = true) (hwv : wfVal v = true) :
    fixAtF (m+1) (.sMap of) (fixAtF (m+1) (.sMap of) v)
      = fixAtF (m+1) (.sMap of) v := by
  have key : ∀ gs, wfFds gs = true →
      fmapVals (fixAtF m of) (fmapVals (fixAtF m of) gs) = fmapVals (fixAtF m of) gs := by
    intro gs
    induction gs using fieldsInd with
    | h1 => intro _; rfl
    | h2 k w tl ihf =>
      intro hwf
      simp only [wfFds, Bool.and_eq_true] at hwf
      show Fields.cons k (fixAtF m of (fixAtF m of w))
          (fmapVals (fixAtF m of) (fmapVals (fixAtF m of) tl))
        = Fields.cons k (fixAtF m of w) (fmapVals (fixAtF m of) tl)
      rw [ih of w hof hwof hwf.1, ihf hwf.2]
  match v with
  | .vObj fs =>
    rw [fixAtF_map_obj, fixAtF_map_obj]
    congr 1
    exact key fs (by simpa [wfVal] using hwv)
  | .vNull => rfl
  | .vUndef => rfl
  | .vBool _ => rfl
  | .vNum _ => rfl
  | .vStr _ => rfl
  | .vArr _ _ => rfl

theorem stripPass_idem (m : Nat) (fields : SchemaFields) (base : Value)
    (ih : ∀ s w, ssize s ≤ m → wfSch s = true → wfVal w = true →
      fixAtF m s (fixAtF m s w) = fixAtF m s w)
    (hsf : sfsize fields ≤ m)
    (hnd2 : (schemaKeys fields).Nodup)
    (hwf : wfSchFds fields = true)
    (hob : isObjectJS base = true) (hwb : wfVal base = true) :
    stripKeys (sfPass (fixAtF m) fields
        (stripKeys (sfPass (fixAtF m) fields base) (schemaKeys fields)))
      (schemaKeys fields)
    = stripKeys (sfPass (fixAtF m) fields base) (schemaKeys fields) := by
  have hor : isObjectJS (sfPass (fixAtF m) fields base) = true :=
    sfPass_isObjectJS _ _ _ hob
  have hpr : pwfOf (sfPass (fixAtF m) fields base) = true :=
    sfPass_pwf _ _ _ (pwfOf_of_wfVal base hwb)
  have hpass : sfPass (fixAtF m) fields
      (stripKeys (sfPass (fixAtF m) fields base) (schemaKeys fields))
    = stripKeys (sfPass (fixAtF m) fields base) (schemaKeys fields) := by
    apply sfPass_id
    intro p hp
    obtain ⟨k, sub⟩ := p
    have hkmem : k ∈ schemaKeys fields := by
      rw [schemaKeys_eq_map]
      exact List.mem_map_of_mem Prod.fst hp
    have hkc : (schemaKeys fields).contains k = true := by simpa using hkmem
    have hkc2 : (schemaKeys fields).contains (keyAsString (knorm (.str k))) = true := by
      rw [keyAsString_knorm_str]
      exact hkc
    refine ⟨?_, ?_⟩
    · show hasOwn
        (stripKeys (sfPass (fixAtF m) fields base) (schemaKeys fields)) (.str k) = true
      rw [stripKeys_eq_foldl, foldStrip_hasOwn_frame _ _ _ _ hkc2]
      exact sfPass_hasOwn_decl _ _ _ _ hkc hob
    · show fixAtF m sub
          (getProp (stripKeys (sfPass (fixAtF m) fields base) (schemaKeys fields)) (.str k))
        = getProp (stripKeys (sfPass (fixAtF m) fields base) (schemaKeys fields)) (.str k)
      rw [stripKeys_eq_foldl, foldStrip_getProp_frame _ _ _ _ hkc2,
        sfPass_getProp_decl _ _ _ _ _ hnd2 (sfGet_of_mem_nodup fields k sub hp hnd2) hob]
      exact ih sub _ (le_trans (ssize_le_of_mem fields k sub hp) hsf)
        (wfSch_of_mem fields (k, sub) hp hwf)
        (wfVal_getProp base _ hwb)
  rw [hpass]
  apply stripKeys_noop
  intro q hq
  exact stripKeys_sub _ _ q hor hpr hq

theorem fixAtF_idem_obj (m : Nat) (fields : SchemaFields) (v : Value)
    (ih : ∀ s w, ssize s ≤ m → wfSch s = true → wfVal w = true →
      fixAtF m s (fixAtF m s w) = fixAtF m s w)
    (hsf : sfsize fields ≤ m)
    (hnd : strNodup (schemaKeys fields) = true)
    (hwf : wfSchFds fields = true)
    (hwv : wfVal v = true) :
    fixAtF (m+1) (.sObj fields) (fixAtF (m+1) (.sObj fields) v)
      = fixAtF (m+1) (.sObj fields) v := by
  have hob : isObjectJS (if isObjectJS v then v else Value.vObj .nil) = true := by
    by_cases h : isObjectJS v = true
    · rw [if_pos h]; exact h
    · rw [if_neg h]; rfl
  have hwb : wfVal (if isObjectJS v then v else Value.vObj .nil) = true := by
    by_cases h : isObjectJS v = true
    · rw [if_pos h]; exact hwv
    · rw [if_neg h]; rfl
  rw [fixAtF_obj m fields v]
  have hor : isObjectJS (sfPass (fixAtF m) fields
      (if isObjectJS v then v else Value.vObj .nil)) = true :=
    sfPass_isObjectJS _ _ _ hob
  have hov1 : isObjectJS (stripKeys (sfPass (fixAtF m) fields
      (if isObjectJS v then v else Value.vObj .nil)) (schemaKeys fields)) = true := by
    rw [stripKeys_eq_foldl]
    exact foldStrip_isObjectJS _ _ _ hor
  rw [fixAtF_obj m fields _, if_pos hov1]
  exact stripPass_idem m fields _ ih hsf ((strNodup_iff _).mp hnd) hwf hob hwb

theorem fixAtF_idem (n : Nat) : ∀ (sch : SchemaV) (v : Value),
    ssize sch ≤ n → wfSch sch = true → wfVal v = true →
    fixAtF n sch (fixAtF n sch v) = fixAtF n sch v := by
  induction n with
  | zero =>
    intro sch v hn _ _
    have := one_le_ssize sch
    omega
  | succ m ih =>
    intro sch v hn hws hwv
    match sch with
    | .sStr d l => exact fixAtF_idem_prim m _ v rfl
    | .sStrOpt d l => exact fixAtF_idem_prim m _ v rfl
    | .sNum d l => exact fixAtF_idem_prim m _ v rfl
    | .sNumOpt d l => exact fixAtF_idem_prim m _ v rfl
    | .sStrNum d l => exact fixAtF_idem_prim m _ v rfl
    | .sBool d l => exact fixAtF_idem_prim m _ v rfl
    | .sArr of =>
      have h1 : ssize of ≤ m := by
        simp only [ssize] at hn
        omega
      exact fixAtF_idem_arr m of v ih h1 (by simpa [wfSch] using hws) hwv
    | .sMap of =>
      have h1 : ssize of ≤ m := by
        simp only [ssize] at hn
        omega
      exact fixAtF_idem_map m of v ih h1 (by simpa [wfSch] using hws) hwv
    | .sObj fields =>
      have h1 : sfsize fields ≤ m := by
        simp only [ssize] at hn
        omega
      have h2 := hws
      simp only [wfSch, Bool.and_eq_true] at h2
      exact fixAtF_idem_obj m fields v ih h1 h2.1 h2.2 hwv

theorem cleanUp_idem_general (sch : SchemaFields) (d : Value)
    (hnd : strNodup (schemaKeys sch) = true)
    (hws : wfSchFds sch = true)
    (hwv : wfVal d = true) :
    cleanUp sch (cleanUp sch d) = cleanUp sch d := by
  show cleanUpF (1 + sfsize sch) sch (cleanUpF (1 + sfsize sch) sch d)
    = cleanUpF (1 + sfsize sch) sch d
  rw [cleanUpF_eq (1 + sfsize sch) sch d (by omega)]
  rw [cleanUpF_eq (1 + sfsize sch) sch _ (by omega)]
  by_cases hob : isObjectJS d = true
  · exact stripPass_idem (1 + sfsize sch) sch d
      (fun s w hs hw1 hw2 => fixAtF_idem (1 + sfsize sch) s w hs hw1 hw2)
      (by omega) ((strNodup_iff _).mp hnd) hws hob hwv
  · have h2 : isObjectJS d = false := by simpa using hob
    rw [sfPass_nonobj (fixAtF (1 + sfsize sch)) sch d h2,
      stripKeys_nonobj d (schemaKeys sch) h2,
      sfPass_nonobj (fixAtF (1 + sfsize sch)) sch d h2]
    exact stripKeys_nonobj d (schemaKeys sch) h2

/-- Example inputs for the idempotence witness: a schema with a number, an
array and a nested object field, and a document that mismatches all of
them and carries an undeclared key. -/
def wSchC6 : SchemaFields :=
  .fcons "a" (.sNum 0 false)
    (.fcons "b" (.sArr (.sStr "d" false))
      (.fcons "c" (.sObj (.fcons "x" (.sBool true false) .fnil)) .fnil))

def wDocC6 : Value :=
  .vObj (.cons "a" (.vStr "oops")
    (.cons "extra" .vNull
      (.cons "b" (.vArr (.hole (.cons (.vNum 3) .nil)) .nil) .nil)))

/-- C6: reconciliation is idempotent. cleanUp, the reconciler the model
applies to every document, satisfies cleanUp sch (cleanUp sch d) =
cleanUp sch d for every schema whose object levels declare each key once
(as JavaScript object literals guarantee) and every document value whose
array named properties do not spell element indices (as JavaScript arrays
guarantee). -/
theorem claim_C6 (sch : SchemaFields) (d : Value)
    (hnd : strNodup (schemaKeys sch) = true)
    (hws : wfSchFds sch = true)
    (hwv : wfVal d = true) :
    cleanUp sch (cleanUp sch d) = cleanUp sch d :=
  cleanUp_idem_general sch d hnd hws hwv

theorem claim_C6_witness :
    (strNodup (schemaKeys wSchC6) = true ∧ wfSchFds wSchC6 = true ∧
      wfVal wDocC6 = true) ∧
    cleanUp wSchC6 (cleanUp wSchC6 wDocC6) = cleanUp wSchC6 wDocC6 :=
  ⟨⟨by decide, by decide, by decide⟩,
    claim_C6 wSchC6 wDocC6 (by decide) (by decide) (by decide)⟩

/-! ## The object branch on non-object current values (claim C7) -/

theorem foldStrip_obj (keep : List String) (L : List String) (fs : Fields) :
    ∃ gs, L.foldl (stripStep keep) (.vObj fs) = .vObj gs := by
  induction L generalizing fs with
  | nil => exact ⟨fs, rfl⟩
  | cons k L ih =>
    rw [List.foldl_cons]
    unfold stripStep
    by_cases hk : keep.contains k = true
    · rw [if_pos hk]
      exact ih fs
    · rw [if_neg hk]
      match hk2 : knorm (.str k) with
      | .str s =>
        have hd : delProp (.vObj fs) (.str k) = .vObj (fieldsDel fs s) := by
          unfold delProp
          rw [hk2]
        rw [hd]
        exact ih _
      | .idx n =>
        have hd : delProp (.vObj fs) (.str k) = .vObj (fieldsDel fs (ntos n)) := by
          unfold delProp
          rw [hk2]
        rw [hd]
        exact ih _

theorem fixAtF_obj_keys (m : Nat) (fields : SchemaFields) (v : Value)
    (hno : isObjectJS v = false) :
    isObjV (fixAtF (m+1) (.sObj fields) v) = true ∧
    ∀ q, q ∈ objKeys (fixAtF (m+1) (.sObj fields) v) ↔ q ∈ schemaKeys fields := by
  rw [fixAtF_obj, if_neg (by simp [hno])]
  have hall : ∀ q, (schemaKeys fields).contains q = true →
      hasOwn (sfPass (fixAtF m) fields (Value.vObj .nil)) (.str q) = true :=
    fun q hqc => sfPass_hasOwn_decl _ _ _ _ hqc (by rfl)
  obtain ⟨hs0, hr⟩ := sfPass_isObjV (fixAtF m) fields .nil
  rw [hr, stripKeys_eq_foldl]
  obtain ⟨gs, hg⟩ := foldStrip_obj (schemaKeys fields) (objKeys (Value.vObj hs0)) hs0
  rw [hg]
  refine ⟨rfl, fun q => ⟨fun hq => ?_, fun hq => ?_⟩⟩
  · have hc : (schemaKeys fields).contains q = true := by
      apply stripKeys_sub (Value.vObj hs0) (schemaKeys fields) q rfl rfl
      rw [stripKeys_eq_foldl, hg]
      exact hq
    simpa using hc
  · have hqc : (schemaKeys fields).contains q = true := by simpa using hq
    have hqc2 : (schemaKeys fields).contains (keyAsString (knorm (.str q))) = true := by
      rw [keyAsString_knorm_str]
      exact hqc
    have h2 : hasOwn (Value.vObj gs) (.str q) = true := by
      rw [← hg, foldStrip_hasOwn_frame _ _ _ _ hqc2, ← hr]
      exact hall q hqc
    exact (mem_objKeys_obj gs q).mpr h2

/-- C7, amended: when the current value is neither a plain object nor an
array, the object branch replaces it with a mapping whose key set is
exactly the declared field set; an array current value, though not a
mapping, is kept as an array (see the counterexample). -/
theorem claim_C7 (fields : SchemaFields) (v : Value)
    (hno : isObjectJS v = false) :
    isObjV (fixAt (.sObj fields) v) = true ∧
    ∀ q, q ∈ objKeys (fixAt (.sObj fields) v) ↔ q ∈ schemaKeys fields := by
  have he : fixAt (.sObj fields) v = fixAtF (sfsize fields + 1) (.sObj fields) v := by
    show fixAtF (ssize (.sObj fields)) (.sObj fields) v = _
    congr 1
    simp only [ssize]
    omega
  rw [he]
  exact fixAtF_obj_keys (sfsize fields) fields v hno

/-- C7 counterexample: an array current value is not a mapping, yet the
object branch of checkTypeMatching does not replace it with a mapping —
the reconciled value is still an array (the declared field is written onto
the array as a named property). -/
theorem claim_C7_counterexample :
    isObjV (fixAt (.sObj (.fcons "x" (.sNum 0 false) .fnil)) (.vArr .nil .nil)) = false
    ∧ isArrV (fixAt (.sObj (.fcons "x" (.sNum 0 false) .fnil)) (.vArr .nil .nil)) = true
    := by decide

theorem claim_C7_witness :
    isObjectJS Value.vNull = false ∧
    isObjV (fixAt (.sObj (.fcons "y" (.sStr "d" false) .fnil)) .vNull) = true ∧
    ("y" ∈ objKeys (fixAt (.sObj (.fcons "y" (.sStr "d" false) .fnil)) .vNull)
      ↔ "y" ∈ schemaKeys (.fcons "y" (.sStr "d" false) .fnil)) :=
  ⟨by decide, (claim_C7 _ .vNull (by decide)).1,
    (claim_C7 _ .vNull (by decide)).2 "y"⟩

/-! ## Idempotence of the JSON normal form -/

mutual
theorem jn_idem_v : ∀ v, jsonNorm (jsonNorm v) = jsonNorm v
  | .vNull => rfl
  | .vUndef => rfl
  | .vBool _ => rfl
  | .vNum _ => rfl
  | .vStr _ => rfl
  | .vArr es _ => by
      show Value.vArr (jnElems (jnElems es)) .nil = .vArr (jnElems es) .nil
      rw [jn_idem_e es]
  | .vObj fs => by
      show Value.vObj (jnFields (jnFields fs)) = .vObj (jnFields fs)
      rw [jn_idem_f fs]
theorem jn_idem_e : ∀ es, jnElems (jnElems es) = jnElems es
  | .nil => rfl
  | .hole tl => by
      show Elems.cons .vNull (jnElems (jnElems tl)) = .cons .vNull (jnElems tl)
      rw [jn_idem_e tl]
  | .cons .vNull tl => by
      show Elems.cons .vNull (jnElems (jnElems tl)) = .cons .vNull (jnElems tl)
      rw [jn_idem_e tl]
  | .cons .vUndef tl => by
      show Elems.cons .vNull (jnElems (jnElems tl)) = .cons .vNull (jnElems tl)
      rw [jn_idem_e tl]
  | .cons (.vBool b) tl => by
      show Elems.cons (.vBool b) (jnElems (jnElems tl)) = .cons (.vBool b) (jnElems tl)
      rw [jn_idem_e tl]
  | .cons (.vNum n) tl => by
      show Elems.cons (.vNum n) (jnElems (jnElems tl)) = .cons (.vNum n) (jnElems tl)
      rw [jn_idem_e tl]
  | .cons (.vStr s) tl => by
      show Elems.cons (.vStr s) (jnElems (jnElems tl)) = .cons (.vStr s) (jnElems tl)
      rw [jn_idem_e tl]
  | .cons (.vArr es2 ps2) tl => by
      show Elems.cons (jsonNorm (jsonNorm (.vArr es2 ps2))) (jnElems (jnElems tl))
        = .cons (jsonNorm (.vArr es2 ps2)) (jnElems tl)
      rw [jn_idem_v (.vArr es2 ps2), jn_idem_e tl]
  | .cons (.vObj fs2) tl => by
      show Elems.cons (jsonNorm (jsonNorm (.vObj fs2))) (jnElems (jnElems tl))
        = .cons (jsonNorm (.vObj fs2)) (jnElems tl)
      rw [jn_idem_v (.vObj fs2), jn_idem_e tl]
theorem jn_idem_f : ∀ fs, jnFields (jnFields fs) = jnFields fs
  | .nil => rfl
  | .cons k .vNull tl => by
      show Fields.cons k .vNull (jnFields (jnFields tl)) = .cons k .vNull (jnFields tl)
      rw [jn_idem_f tl]
  | .cons k .vUndef tl => jn_idem_f tl
  | .cons k (.vBool b) tl => by
      show Fields.cons k (.vBool b) (jnFields (jnFields tl)) = .cons k (.vBool b) (jnFields tl)
      rw [jn_idem_f tl]
  | .cons k (.vNum n) tl => by
      show Fields.cons k (.vNum n) (jnFields (jnFields tl)) = .cons k (.vNum n) (jnFields tl)
      rw [jn_idem_f tl]
  | .cons k (.vStr s) tl => by
      show Fields.cons k (.vStr s) (jnFields (jnFields tl)) = .cons k (.vStr s) (jnFields tl)
      rw [jn_idem_f tl]
  | .cons k (.vArr es2 ps2) tl => by
      show Fields.cons k (jsonNorm (jsonNorm (.vArr es2 ps2))) (jnFields (jnFields tl))
        = .cons k (jsonNorm (.vArr es2 ps2)) (jnFields tl)
      rw [jn_idem_v (.vArr es2 ps2), jn_idem_f tl]
  | .cons k (.vObj fs2) tl => by
      show Fields.cons k (jsonNorm (jsonNorm (.vObj fs2))) (jnFields (jnFields tl))
        = .cons k (jsonNorm (.vObj fs2)) (jnFields tl)
      rw [jn_idem_v (.vObj fs2), jn_idem_f tl]
end

theorem jsonNorm_idem (v : Value) : jsonNorm (jsonNorm v) = jsonNorm v := jn_idem_v v

/-! ## The guard raises only the runtime TypeError -/

theorem except_bind_err {α β : Type} (e : DbError) (f : α → Except DbError β) :
    (Except.error e >>= f) = Except.error e := rfl

theorem except_bind_ok {α β : Type} (a : α) (f : α → Except DbError β) :
    (Except.ok a >>= f) = f a := rfl

theorem jsRead_err (v : Value) (k : JKey) (e : DbError)
    (h : jsRead v k = .error e) : e = .jsTypeError := by
  match v with
  | .vNull => injection h with h2; exact h2.symm
  | .vUndef => injection h with h2; exact h2.symm
  | .vBool _ => exact Except.noConfusion h
  | .vNum _ => exact Except.noConfusion h
  | .vStr _ => exact Except.noConfusion h
  | .vArr _ _ => exact Except.noConfusion h
  | .vObj _ => exact Except.noConfusion h

theorem jsWrite_err (v : Value) (k : JKey) (w : Value) (e : DbError)
    (h : jsWrite v k w = .error e) : e = .jsTypeError := by
  match v with
  | .vNull => injection h with h2; exact h2.symm
  | .vUndef => injection h with h2; exact h2.symm
  | .vBool _ => injection h with h2; exact h2.symm
  | .vNum _ => injection h with h2; exact h2.symm
  | .vStr _ => injection h with h2; exact h2.symm
  | .vArr _ _ => exact Except.noConfusion h
  | .vObj _ => exact Except.noConfusion h

theorem jsKeys_err (v : Value) (e : DbError)
    (h : jsKeys v = .error e) : e = .jsTypeError := by
  match v with
  | .vNull => injection h with h2; exact h2.symm
  | .vUndef => injection h with h2; exact h2.symm
  | .vBool _ => exact Except.noConfusion h
  | .vNum _ => exact Except.noConfusion h
  | .vStr _ => exact Except.noConfusion h
  | .vArr _ _ => exact Except.noConfusion h
  | .vObj _ => exact Except.noConfusion h

theorem jsRead_obj (v : Value) (k : JKey) (h : isObjectJS v = true) :
    jsRead v k = .ok (getProp v k) := by
  match v with
  | .vArr _ _ => rfl
  | .vObj _ => rfl

theorem jsWrite_obj (v : Value) (k : JKey) (w : Value) (h : isObjectJS v = true) :
    jsWrite v k w = .ok (setProp v k w) := by
  match v with
  | .vArr _ _ => rfl
  | .vObj _ => rfl

theorem guardIdxLoop_err (g : Value → Value → JKey → SchemaV → Except DbError Value)
    (of : SchemaV) (obj1 : Value)
    (hg : ∀ v1 v2 k s e, g v1 v2 k s = .error e → e = .jsTypeError) :
    ∀ (m : Nat) (obj2 : Value) (key : JKey) (i : Nat) (e : DbError),
      guardIdxLoop g of obj1 obj2 key i m = .error e → e = .jsTypeError := by
  intro m
  induction m with
  | zero => intro obj2 key i e h; exact Except.noConfusion h
  | succ m ih =>
    intro obj2 key i e h
    unfold guardIdxLoop at h
    match h1 : jsRead obj1 key with
    | .error e1 =>
      rw [h1, except_bind_err] at h
      injection h with h2
      rw [← h2]
      exact jsRead_err _ _ _ h1
    | .ok v1 =>
      rw [h1, except_bind_ok] at h
      match h2 : jsRead obj2 key with
      | .error e2 =>
        rw [h2, except_bind_err] at h
        injection h with h3
        rw [← h3]
        exact jsRead_err _ _ _ h2
      | .ok v2 =>
        rw [h2, except_bind_ok] at h
        match h3 : g v1 v2 (.idx i) of with
        | .error e3 =>
          rw [h3, except_bind_err] at h
          injection h with h4
          rw [← h4]
          exact hg _ _ _ _ _ h3
        | .ok r =>
          rw [h3, except_bind_ok] at h
          match h4 : jsWrite obj2 key r with
          | .error e4 =>
            rw [h4, except_bind_err] at h
            injection h with h5
            rw [← h5]
            exact jsWrite_err _ _ _ _ h4
          | .ok obj2b =>
            rw [h4, except_bind_ok] at h
            exact ih _ _ _ _ h

theorem guardKeyLoop_err (g : Value → Value → JKey → SchemaV → Except DbError Value)
    (of : SchemaV) (obj1 : Value)
    (hg : ∀ v1 v2 k s e, g v1 v2 k s = .error e → e = .jsTypeError) :
    ∀ (ks : List String) (obj2 : Value) (key : JKey) (e : DbError),
      guardKeyLoop g of obj1 obj2 key ks = .error e → e = .jsTypeError := by
  intro ks
  induction ks with
  | nil => intro obj2 key e h; exact Except.noConfusion h
  | cons k2 ks ih =>
    intro obj2 key e h
    unfold guardKeyLoop at h
    match h1 : jsRead obj1 key with
    | .error e1 =>
      rw [h1, except_bind_err] at h
      injection h with h2
      rw [← h2]
      exact jsRead_err _ _ _ h1
    | .ok v1 =>
      rw [h1, except_bind_ok] at h
      match h2 : jsRead obj2 key with
      | .error e2 =>
        rw [h2, except_bind_err] at h
        injection h with h3
        rw [← h3]
        exact jsRead_err _ _ _ h2
      | .ok v2 =>
        rw [h2, except_bind_ok] at h
        match h3 : g v1 v2 (.str k2) of with
        | .error e3 =>
          rw [h3, except_bind_err] at h
          injection h with h4
          rw [← h4]
          exact hg _ _ _ _ _ h3
        | .ok r =>
          rw [h3, except_bind_ok] at h
          match h4 : jsWrite obj2 key r with
          | .error e4 =>
            rw [h4, except_bind_err] at h
            injection h with h5
            rw [← h5]
            exact jsWrite_err _ _ _ _ h4
          | .ok obj2b =>
            rw [h4, except_bind_ok] at h
            exact ih _ _ _ h

theorem guardFieldLoop_err (g : Value → Value → JKey → SchemaV → Except DbError Value)
    (obj1 : Value)
    (hg : ∀ v1 v2 k s e, g v1 v2 k s = .error e → e = .jsTypeError) :
    ∀ (fields : SchemaFields) (obj2 : Value) (key : JKey) (e : DbError),
      guardFieldLoop g obj1 obj2 key fields = .error e → e = .jsTypeError := by
  intro fields
  induction fields using schemaFieldsInd with
  | h1 => intro obj2 key e h; exact Except.noConfusion h
  | h2 k2 sub tl ih =>
    intro obj2 key e h
    unfold guardFieldLoop at h
    match h1 : jsRead obj1 key with
    | .error e1 =>
      rw [h1, except_bind_err] at h
      injection h with h2
      rw [← h2]
      exact jsRead_err _ _ _ h1
    | .ok v1 =>
      rw [h1, except_bind_ok] at h
      match h2 : jsRead obj2 key with
      | .error e2 =>
        rw [h2, except_bind_err] at h
        injection h with h3
        rw [← h3]
        exact jsRead_err _ _ _ h2
      | .ok v2 =>
        rw [h2, except_bind_ok] at h
        match h3 : g v1 v2 (.str k2) sub with
        | .error e3 =>
          rw [h3, except_bind_err] at h
          injection h with h4
          rw [← h4]
          exact hg _ _ _ _ _ h3
        | .ok r =>
          rw [h3, except_bind_ok] at h
          match h4 : jsWrite obj2 key r with
          | .error e4 =>
            rw [h4, except_bind_err] at h
            injection h with h5
            rw [← h5]
            exact jsWrite_err _ _ _ _ h4
          | .ok obj2b =>
            rw [h4, except_bind_ok] at h
            exact ih _ _ _ h

theorem except_bind_pure {α β : Type} (a : α) (f : α → Except DbError β) :
    ((pure a : Except DbError α) >>= f) = f a := rfl

theorem clbF_prim_succ (n : Nat) (o1 o2 : Value) (k : JKey) (sch : SchemaV)
    (hp : isPrimitiveSchema sch = true) :
    clbF (n+1) o1 o2 k sch =
      if lockedOf sch = true then
        (jsRead o2 k >>= fun v2 => jsRead o1 k >>= fun v1 =>
          if v2 ≠ v1 then jsWrite o2 k v1 else .ok o2)
      else .ok o2 := by
  match sch with
  | .sStr _ _ => rfl
  | .sStrOpt _ _ => rfl
  | .sNum _ _ => rfl
  | .sNumOpt _ _ => rfl
  | .sStrNum _ _ => rfl
  | .sBool _ _ => rfl

theorem clbF_arr_succ (n : Nat) (o1 o2 : Value) (k : JKey) (of : SchemaV) :
    clbF (n+1) o1 o2 k (.sArr of) =
      (jsRead o2 k >>= fun a2 =>
        if isArrV a2 then
          pure (arrLenOf a2) >>= fun len => guardIdxLoop (clbF n) of o1 o2 k 0 len
        else jsRead o1 k >>= fun a1 =>
          pure (if isArrV a1 then arrLenOf a1 else 0) >>= fun len =>
            guardIdxLoop (clbF n) of o1 o2 k 0 len) := by
  unfold clbF
  rfl

theorem clbF_map_succ (n : Nat) (o1 o2 : Value) (k : JKey) (of : SchemaV) :
    clbF (n+1) o1 o2 k (.sMap of) =
      (jsRead o1 k >>= fun m1 => jsKeys m1 >>= fun ks1 =>
       jsRead o2 k >>= fun m2 => jsKeys m2 >>= fun ks2 =>
       guardKeyLoop (clbF n) of o1 o2 k (if ks1.length > 0 then ks1 else ks2)) := by rfl

theorem clbF_obj_succ (n : Nat) (o1 o2 : Value) (k : JKey) (fields : SchemaFields) :
    clbF (n+1) o1 o2 k (.sObj fields) = guardFieldLoop (clbF n) o1 o2 k fields := by rfl

theorem clbF_prim_err (n : Nat) (o1 o2 : Value) (k : JKey) (s : SchemaV) (e : DbError)
    (hp : isPrimitiveSchema s = true)
    (h : clbF (n+1) o1 o2 k s = .error e) : e = .jsTypeError := by
  rw [clbF_prim_succ n o1 o2 k s hp] at h
  by_cases hl : lockedOf s = true
  · rw [if_pos hl] at h
    match h1 : jsRead o2 k with
    | .error e1 =>
      rw [h1, except_bind_err] at h
      injection h with h2
      rw [← h2]
      exact jsRead_err _ _ _ h1
    | .ok v2 =>
      rw [h1, except_bind_ok] at h
      match h2 : jsRead o1 k with
      | .error e2 =>
        rw [h2, except_bind_err] at h
        injection h with h3
        rw [← h3]
        exact jsRead_err _ _ _ h2
      | .ok v1 =>
        rw [h2, except_bind_ok] at h
        by_cases hne : v2 ≠ v1
        · rw [if_pos hne] at h
          exact jsWrite_err _ _ _ _ h
        · rw [if_neg hne] at h
          exact Except.noConfusion h
  · rw [if_neg hl] at h
    exact Except.noConfusion h

theorem clbF_err : ∀ (n : Nat) (o1 o2 : Value) (k : JKey) (s : SchemaV) (e : DbError),
    clbF n o1 o2 k s = .error e → e = .jsTypeError := by
  intro n
  induction n with
  | zero => intro o1 o2 k s e h; exact Except.noConfusion h
  | succ n ih =>
    intro o1 o2 k s e h
    match s with
    | .sStr d l => exact clbF_prim_err n o1 o2 k (.sStr d l) e rfl h
    | .sStrOpt d l => exact clbF_prim_err n o1 o2 k (.sStrOpt d l) e rfl h
    | .sNum d l => exact clbF_prim_err n o1 o2 k (.sNum d l) e rfl h
    | .sNumOpt d l => exact clbF_prim_err n o1 o2 k (.sNumOpt d l) e rfl h
    | .sStrNum d l => exact clbF_prim_err n o1 o2 k (.sStrNum d l) e rfl h
    | .sBool d l => exact clbF_prim_err n o1 o2 k (.sBool d l) e rfl h
    | .sArr of =>
      rw [clbF_arr_succ] at h
      match h1 : jsRead o2 k with
      | .error e1 =>
        rw [h1, except_bind_err] at h
        injection h with h2
        rw [← h2]
        exact jsRead_err _ _ _ h1
      | .ok a2 =>
        rw [h1, except_bind_ok] at h
        by_cases ha : isArrV a2 = true
        · rw [if_pos ha, except_bind_pure] at h
          exact guardIdxLoop_err _ _ _ ih _ _ _ _ _ h
        · rw [if_neg ha] at h
          match h2 : jsRead o1 k with
          | .error e2 =>
            rw [h2, except_bind_err] at h
            injection h with h3
            rw [← h3]
            exact jsRead_err _ _ _ h2
          | .ok a1 =>
            rw [h2, except_bind_ok, except_bind_pure] at h
            exact guardIdxLoop_err _ _ _ ih _ _ _ _ _ h
    | .sMap of =>
      rw [clbF_map_succ] at h
      match h1 : jsRead o1 k with
      | .error e1 =>
        rw [h1, except_bind_err] at h
        injection h with h2
        rw [← h2]
        exact jsRead_err _ _ _ h1
      | .ok m1 =>
        rw [h1, except_bind_ok] at h
        match h2 : jsKeys m1 with
        | .error e2 =>
          rw [h2, except_bind_err] at h
          injection h with h3
          rw [← h3]
          exact jsKeys_err _ _ h2
        | .ok ks1 =>
          rw [h2, except_bind_ok] at h
          match h3 : jsRead o2 k with
          | .error e3 =>
            rw [h3, except_bind_err] at h
            injection h with h4
            rw [← h4]
            exact jsRead_err _ _ _ h3
          | .ok m2 =>
            rw [h3, except_bind_ok] at h
            match h4 : jsKeys m2 with
            | .error e4 =>
              rw [h4, except_bind_err] at h
              injection h with h5
              rw [← h5]
              exact jsKeys_err _ _ h4
            | .ok ks2 =>
              rw [h4, except_bind_ok] at h
              exact guardKeyLoop_err _ _ _ ih _ _ _ _ h
    | .sObj fields =>
      rw [clbF_obj_succ] at h
      exact guardFieldLoop_err _ _ ih _ _ _ _ h

theorem guardTop_err : ∀ (sch : SchemaFields) (u nd : Value) (e : DbError),
    guardTop sch u nd = .error e → e = .jsTypeError := by
  intro sch
  induction sch using schemaFieldsInd with
  | h1 => intro u nd e h; exact Except.noConfusion h
  | h2 k sub tl ih =>
    intro u nd e h
    match hc : changeLockedBack u nd (.str k) sub with
    | .error e1 =>
      simp only [guardTop, hc, except_bind_err] at h
      injection h with h2
      rw [← h2]
      exact clbF_err _ _ _ _ _ _ hc
    | .ok nd2 =>
      simp only [guardTop, hc, except_bind_ok] at h
      exact ih _ _ _ h

theorem guardTop_ok_pair : ∀ (sch : SchemaFields) (u nd : Value) (r : Value × Value),
    guardTop sch u nd = .ok r → r = (u, nd) ∨ r.1 = r.2 := by
  intro sch
  induction sch using schemaFieldsInd with
  | h1 =>
    intro u nd r h
    injection h with h2
    exact .inl h2.symm
  | h2 k sub tl ih =>
    intro u nd r h
    match hc : changeLockedBack u nd (.str k) sub with
    | .error e1 =>
      simp only [guardTop, hc, except_bind_err] at h
      exact Except.noConfusion h
    | .ok nd2 =>
      simp only [guardTop, hc, except_bind_ok] at h
      rcases ih nd2 nd2 r h with he | he
      · right
        rw [he]
      · exact .inr he

theorem save_err (strict : Bool) (sch : SchemaFields) (st : Store) (d : Value)
    (e : DbError) (h : save strict sch st d = .error e) : e = .schemaTypeError := by
  simp only [save] at h
  by_cases hc : (strict && (jsonNorm d != jsonNorm (cleanUp sch (jsonNorm d)))) = true
  · rw [if_pos hc] at h
    injection h with h2
    exact h2.symm
  · rw [if_neg hc] at h
    exact Except.noConfusion h

/-- Observation: the result is the immutability-violation error. -/
def isLockedErr : Except DbError (Store × Value) → Bool
  | .error .lockedChanged => true
  | _ => false

theorem findOneAndUpdate_not_locked (strict : Bool) (sch : SchemaFields) (st : Store)
    (filter : Value → Bool) (updateFn : Value → Value) :
    isLockedErr (findOneAndUpdate strict sch st filter updateFn) = false := by
  unfold findOneAndUpdate
  match hf : findOne sch st filter with
  | .error e =>
    rw [except_bind_err]
    have he : e = .notFound := by
      unfold findOne at hf
      match hq : (st.map (fun e2 => cleanUp sch e2.2)).find? filter with
      | some f =>
        rw [hq] at hf
        exact Except.noConfusion hf
      | none =>
        rw [hq] at hf
        injection hf with h2
        exact h2.symm
    rw [he]
    rfl
  | .ok f =>
    rw [except_bind_ok]
    show isLockedErr
        (guardTop sch (jsonNorm (updateFn (jsonNorm f))) (updateFn (jsonNorm f)) >>=
          fun x =>
            match x with
            | (u, nd) =>
              if (jsonNorm u != jsonNorm nd) = true then Except.error DbError.lockedChanged
              else save strict sch st nd >>= fun st2 => Except.ok (st2, nd)) = false
    match hg : guardTop sch (jsonNorm (updateFn (jsonNorm f))) (updateFn (jsonNorm f)) with
    | .error e =>
      rw [except_bind_err, guardTop_err _ _ _ _ hg]
      rfl
    | .ok r =>
      rw [except_bind_ok]
      obtain ⟨u, nd⟩ := r
      have hcmp : (jsonNorm u != jsonNorm nd) = false := by
        rcases guardTop_ok_pair _ _ _ _ hg with he | he
        · rw [Prod.mk.injEq] at he
          rw [he.1, he.2, jsonNorm_idem]
          simp
        · simp only at he
          rw [he]
          simp
      show isLockedErr (if (jsonNorm u != jsonNorm nd) = true then
          Except.error DbError.lockedChanged
        else (save strict sch st nd >>= fun st2 => Except.ok (st2, nd))) = false
      rw [hcmp, if_neg Bool.false_ne_true]
      match hs : save strict sch st nd with
      | .error e2 =>
        rw [except_bind_err, save_err _ _ _ _ _ hs]
        rfl
      | .ok st2 =>
        rw [except_bind_ok]
        rfl

/-- C1: contrary to the claim, findOneAndUpdate can never fail with the
immutability-violation error: the guard loop of the source aliases the
two compared objects (each iteration passes changeLockedBack's result as
both the next original and the next candidate, and the first comparison
serializes the candidate against the object the guard just returned), so
the comparison that raises the error always sees two equal
serializations. On a concrete store whose schema locks the primitive
field, an update that changes the locked field succeeds and the changed
document is persisted. -/
theorem claim_C1 :
    (∀ (strict : Bool) (sch : SchemaFields) (st : Store)
        (filter : Value → Bool) (updateFn : Value → Value),
      isLockedErr (findOneAndUpdate strict sch st filter updateFn) = false) ∧
    findOneAndUpdate true (.fcons "_id" (.sStr "" true) .fnil)
        [("abc", .vObj (.cons "_id" (.vStr "abc") .nil))]
        (fun _ => true) (fun _ => .vObj (.cons "_id" (.vStr "zzz") .nil))
      = .ok ([("abc", .vObj (.cons "_id" (.vStr "abc") .nil)),
              ("zzz", .vObj (.cons "_id" (.vStr "zzz") .nil))],
             .vObj (.cons "_id" (.vStr "zzz") .nil)) ∧
    lockedOf (.sStr "" true) = true :=
  ⟨fun strict sch st filter updateFn =>
      findOneAndUpdate_not_locked strict sch st filter updateFn,
    by decide, rfl⟩

/-! ## The guard on a locked primitive field (claims C4 and C5) -/

theorem ssize_prim (sch : SchemaV) (hp : isPrimitiveSchema sch = true) :
    ssize sch = 1 := by
  match sch with
  | .sStr _ _ => rfl
  | .sStrOpt _ _ => rfl
  | .sNum _ _ => rfl
  | .sNumOpt _ _ => rfl
  | .sStrNum _ _ => rfl
  | .sBool _ _ => rfl

/-- C4, amended: for a primitive descriptor with locked = true and object
(or array) originals and candidates, changeLockedBack restores the
original value at the key: the result is the candidate with the key
rewritten to the original value whenever the two differ, and the value it
holds at the key equals the original's. Through containers the
restoration can fail — a locked array shortened by the candidate keeps
its shortened length (see the counterexample), because the loop bound
comes from the candidate's array. -/
theorem claim_C4 (obj1 obj2 : Value) (key : JKey) (sch : SchemaV)
    (h1 : isObjectJS obj1 = true) (h2 : isObjectJS obj2 = true)
    (hp : isPrimitiveSchema sch = true) (hl : lockedOf sch = true) :
    changeLockedBack obj1 obj2 key sch
      = .ok (if getProp obj2 key = getProp obj1 key then obj2
             else setProp obj2 key (getProp obj1 key)) ∧
    getProp (if getProp obj2 key = getProp obj1 key then obj2
             else setProp obj2 key (getProp obj1 key)) key = getProp obj1 key := by
  have hu : changeLockedBack obj1 obj2 key sch = clbF (0+1) obj1 obj2 key sch := by
    unfold changeLockedBack
    rw [ssize_prim sch hp]
  rw [hu, clbF_prim_succ 0 obj1 obj2 key sch hp, if_pos hl,
    jsRead_obj obj2 key h2, except_bind_ok, jsRead_obj obj1 key h1, except_bind_ok]
  by_cases he : getProp obj2 key = getProp obj1 key
  · rw [if_neg (by simpa using he), if_pos he]
    exact ⟨rfl, he⟩
  · rw [if_pos he, if_neg he, jsWrite_obj obj2 key _ h2]
    exact ⟨rfl, getProp_setProp_self obj2 key _ h2⟩

theorem claim_C4_counterexample :
    changeLockedBack
      (.vObj (.cons "l" (.vArr (.cons (.vStr "a") (.cons (.vStr "b") .nil)) .nil) .nil))
      (.vObj (.cons "l" (.vArr (.cons (.vStr "z") .nil) .nil) .nil))
      (.str "l") (.sArr (.sStr "" true))
      = .ok (.vObj (.cons "l" (.vArr (.cons (.vStr "a") .nil) .nil) .nil)) ∧
    getProp (getProp
        (.vObj (.cons "l" (.vArr (.cons (.vStr "a") .nil) .nil) .nil)) (.str "l")) (.idx 1)
      ≠ getProp (getProp
        (.vObj (.cons "l" (.vArr (.cons (.vStr "a") (.cons (.vStr "b") .nil)) .nil) .nil))
        (.str "l")) (.idx 1) := by decide

theorem claim_C4_witness :
    (isObjectJS (.vObj (.cons "k" (.vStr "a") .nil)) = true ∧
      isObjectJS (.vObj (.cons "k" (.vStr "z") .nil)) = true ∧
      isPrimitiveSchema (.sStr "" true) = true ∧ lockedOf (.sStr "" true) = true) ∧
    (changeLockedBack (.vObj (.cons "k" (.vStr "a") .nil))
        (.vObj (.cons "k" (.vStr "z") .nil)) (.str "k") (.sStr "" true)
      = .ok (if getProp (.vObj (.cons "k" (.vStr "z") .nil)) (.str "k")
              = getProp (.vObj (.cons "k" (.vStr "a") .nil)) (.str "k")
             then (.vObj (.cons "k" (.vStr "z") .nil))
             else setProp (.vObj (.cons "k" (.vStr "z") .nil)) (.str "k")
               (getProp (.vObj (.cons "k" (.vStr "a") .nil)) (.str "k"))) ∧
      getProp (if getProp (.vObj (.cons "k" (.vStr "z") .nil)) (.str "k")
              = getProp (.vObj (.cons "k" (.vStr "a") .nil)) (.str "k")
             then (.vObj (.cons "k" (.vStr "z") .nil))
             else setProp (.vObj (.cons "k" (.vStr "z") .nil)) (.str "k")
               (getProp (.vObj (.cons "k" (.vStr "a") .nil)) (.str "k"))) (.str "k")
        = getProp (.vObj (.cons "k" (.vStr "a") .nil)) (.str "k")) :=
  ⟨⟨by decide, by decide, by decide, by decide⟩,
    claim_C4 (.vObj (.cons "k" (.vStr "a") .nil)) (.vObj (.cons "k" (.vStr "z") .nil))
      (.str "k") (.sStr "" true) (by decide) (by decide) (by decide) (by decide)⟩

/-- C5, amended: the guard is not total — it can raise the runtime
TypeError, for example when a map-typed field holds null on either side
(see the counterexample) — but the TypeError is the only failure it can
raise; every error changeLockedBack returns is the runtime one. -/
theorem claim_C5 (obj1 obj2 : Value) (key : JKey) (sch : SchemaV) (e : DbError)
    (h : changeLockedBack obj1 obj2 key sch = .error e) : e = .jsTypeError :=
  clbF_err _ _ _ _ _ _ h

theorem claim_C5_counterexample :
    changeLockedBack (.vObj (.cons "m" .vNull .nil)) (.vObj (.cons "m" .vNull .nil))
      (.str "m") (.sMap (.sStr "" true)) = .error .jsTypeError := by decide

theorem claim_C5_witness :
    changeLockedBack (.vObj (.cons "m" .vNull .nil)) (.vObj (.cons "m" (.vNum 3) .nil))
        (.str "m") (.sMap (.sStr "" true)) = .error .jsTypeError ∧
    DbError.jsTypeError = .jsTypeError :=
  ⟨by decide,
    claim_C5 (.vObj (.cons "m" .vNull .nil)) (.vObj (.cons "m" (.vNum 3) .nil))
      (.str "m") (.sMap (.sStr "" true)) .jsTypeError (by decide)⟩

/-! ## What save and create write and return (claims C2 and C3) -/

/-- C2, amended: with strict mode off, create always succeeds, but what it
writes is the serialized raw input and what it returns is the raw input
itself — not the reconciled form. The reconciled copy is computed only
for the strict-mode comparison and then discarded (see the
counterexample, where the input is missing a declared field and is
persisted and returned unreconciled). -/
theorem claim_C2 (sch : SchemaFields) (st : Store) (d : Value) :
    create false sch st d = .ok (storeWrite st (idOf d) (jsonNorm d), d) := by
  show (save false sch st d).map (fun st2 => (st2, d)) = _
  simp only [save, Bool.false_and]
  rw [if_neg Bool.false_ne_true]
  rfl

theorem claim_C2_counterexample :
    create false (.fcons "a" (.sNum 0 false) .fnil) [] (.vObj .nil)
      = .ok ([("undefined", .vObj .nil)], .vObj .nil) ∧
    cleanUp (.fcons "a" (.sNum 0 false) .fnil) (.vObj .nil)
      = .vObj (.cons "a" (.vNum 0) .nil) ∧
    (.vObj .nil : Value) ≠ .vObj (.cons "a" (.vNum 0) .nil) := by decide

/-- C3: the strict-mode check of save (shared by create and the update
path) raises the schema type error exactly when strict mode is on and the
serialization of the supplied document differs from the serialization of
its reconciled form; on that error no store is produced, and with strict
mode off save always succeeds and writes the serialized input. -/
theorem claim_C3 (strict : Bool) (sch : SchemaFields) (st : Store) (d : Value) :
    (save strict sch st d = .error .schemaTypeError
       ↔ strict = true ∧ jsonNorm d ≠ jsonNorm (cleanUp sch (jsonNorm d)))
    ∧ (create strict sch st d = .error .schemaTypeError
       ↔ strict = true ∧ jsonNorm d ≠ jsonNorm (cleanUp sch (jsonNorm d)))
    ∧ save false sch st d = .ok (storeWrite st (idOf d) (jsonNorm d)) := by
  have hsave : save strict sch st d
      = if (strict && (jsonNorm d != jsonNorm (cleanUp sch (jsonNorm d)))) = true
        then .error .schemaTypeError
        else .ok (storeWrite st (idOf d) (jsonNorm d)) := by
    simp only [save]
  have key : save strict sch st d = .error .schemaTypeError
      ↔ strict = true ∧ jsonNorm d ≠ jsonNorm (cleanUp sch (jsonNorm d)) := by
    rw [hsave]
    constructor
    · intro h
      by_cases hc : (strict && (jsonNorm d != jsonNorm (cleanUp sch (jsonNorm d)))) = true
      · rw [Bool.and_eq_true, bne_iff_ne] at hc
        exact hc
      · rw [if_neg hc] at h
        exact Except.noConfusion h
    · rintro ⟨hs, hm⟩
      rw [if_pos (by rw [Bool.and_eq_true, bne_iff_ne]; exact ⟨hs, hm⟩)]
  have hmap : ∀ (x : Except DbError Store),
      (x.map (fun st2 => (st2, d)) = .error .schemaTypeError)
        ↔ x = .error .schemaTypeError := by
    intro x
    match x with
    | .error e =>
      simp only [Except.map]
      constructor
      · intro h
        injection h with h2
        rw [h2]
      · intro h
        injection h with h2
        rw [h2]
    | .ok a =>
      constructor
      · intro h
        exact Except.noConfusion h
      · intro h
        exact Except.noConfusion h
  refine ⟨key, ?_, ?_⟩
  · show ((save strict sch st d).map (fun st2 => (st2, d)) = .error .schemaTypeError) ↔ _
    rw [hmap (save strict sch st d)]
    exact key
  · simp only [save, Bool.false_and]
    rw [if_neg Bool.false_ne_true]

/-! ## Conformance of returned documents (claim C8) -/

/-- C8, amended: every document returned by find or findOne equals its own
reconciliation against the schema (the stored files are reconciled on
load, and reconciliation is idempotent); but create and findOneAndUpdate
return the supplied or mutated document itself, which in non-strict mode
need not be conformant (see the counterexample). -/
theorem claim_C8 (sch : SchemaFields) (st : Store) (filter : Value → Bool) (d : Value)
    (hnd : strNodup (schemaKeys sch) = true)
    (hws : wfSchFds sch = true)
    (hst : ∀ p ∈ st, wfVal p.2 = true) :
    (d ∈ find sch st filter → cleanUp sch d = d) ∧
    (findOne sch st filter = .ok d → cleanUp sch d = d) := by
  have hmem : d ∈ st.map (fun e => cleanUp sch e.2) → cleanUp sch d = d := by
    intro hm
    rw [List.mem_map] at hm
    obtain ⟨p, hp, he⟩ := hm
    rw [← he]
    exact cleanUp_idem_general sch p.2 hnd hws (hst p hp)
  constructor
  · intro hd
    unfold find at hd
    exact hmem (List.mem_of_mem_filter hd)
  · intro hd
    unfold findOne at hd
    match hq : (st.map (fun e => cleanUp sch e.2)).find? filter with
    | some f =>
      rw [hq] at hd
      injection hd with h2
      rw [h2] at hq
      exact hmem (List.mem_of_find?_eq_some hq)
    | none =>
      rw [hq] at hd
      exact Except.noConfusion hd

theorem claim_C8_counterexample :
    create false (.fcons "b" (.sBool true false) .fnil) [] (.vObj .nil)
      = .ok ([("undefined", .vObj .nil)], .vObj .nil) ∧
    cleanUp (.fcons "b" (.sBool true false) .fnil) (.vObj .nil) ≠ .vObj .nil := by decide

theorem claim_C8_witness :
    ((.vObj (.cons "a" (.vNum 0) .nil)) ∈ find (.fcons "a" (.sNum 0 false) .fnil)
        [("x", .vObj .nil)] (fun _ => true)) ∧
    cleanUp (.fcons "a" (.sNum 0 false) .fnil) (.vObj (.cons "a" (.vNum 0) .nil))
      = .vObj (.cons "a" (.vNum 0) .nil) :=
  ⟨by decide, (claim_C8 (.fcons "a" (.sNum 0 false) .fnil) [("x", .vObj .nil)]
      (fun _ => true) (.vObj (.cons "a" (.vNum 0) .nil))
      (by decide) (by decide) (by decide)).1 (by decide)⟩

/-! ## The diff engine only reports formatted differences (claim C10) -/

theorem foldl_mem_or {α : Type} (P : α → Prop) (step : List α → String → List α)
    (h : ∀ acc k r, r ∈ step acc k → r ∈ acc ∨ P r) :
    ∀ (ks : List String) (acc : List α) (r : α), r ∈ ks.foldl step acc → r ∈ acc ∨ P r := by
  intro ks
  induction ks with
  | nil => intro acc r hr; exact .inl hr
  | cons k ks ih =>
    intro acc r hr
    rw [List.foldl_cons] at hr
    rcases ih _ r hr with hmem | hp
    · exact h acc k r hmem
    · exact .inr hp

theorem createLogArrayF_ne : ∀ (n : Nat) (oldO newO : Value) (path : String) (r : LogRec),
    r ∈ createLogArrayF n oldO newO path → r.oldValue ≠ r.newValue := by
  intro n
  induction n with
  | zero =>
    intro oldO newO path r hr
    exact absurd hr (List.not_mem_nil r)
  | succ n ih =>
    intro oldO newO path r hr
    have hstep : ∀ (acc : List LogRec) (k : String) (r2 : LogRec),
        r2 ∈ (if (isObjectJS newO && isObjectJS (getProp newO (.str k)) &&
              (hasObjectsAsValues (getProp newO (.str k)) ||
                (isObjectJS oldO && isObjectJS (oku oldO k) &&
                  hasObjectsAsValues (oku oldO k)))) = true then
            acc ++ createLogArrayF n (oku oldO k) (getProp newO (.str k)) (path ++ "." ++ k)
          else if (formatLog (oku oldO k) (oku newO k)
              != formatLog (oku newO k) (oku oldO k)) = true then
            acc ++ [⟨path ++ "." ++ k, formatLog (oku oldO k) (oku newO k),
              formatLog (oku newO k) (oku oldO k)⟩]
          else acc) →
        r2 ∈ acc ∨ r2.oldValue ≠ r2.newValue := by
      intro acc k r2 hr2
      by_cases hc : (isObjectJS newO && isObjectJS (getProp newO (.str k)) &&
              (hasObjectsAsValues (getProp newO (.str k)) ||
                (isObjectJS oldO && isObjectJS (oku oldO k) &&
                  hasObjectsAsValues (oku oldO k)))) = true
      · rw [if_pos hc] at hr2
        rcases List.mem_append.mp hr2 with h | h
        · exact .inl h
        · exact .inr (ih _ _ _ r2 h)
      · rw [if_neg hc] at hr2
        by_cases hab : (formatLog (oku oldO k) (oku newO k)
            != formatLog (oku newO k) (oku oldO k)) = true
        · rw [if_pos hab] at hr2
          rcases List.mem_append.mp hr2 with h | h
          · exact .inl h
          · right
            have he : r2 = ⟨path ++ "." ++ k, formatLog (oku oldO k) (oku newO k),
                formatLog (oku newO k) (oku oldO k)⟩ := List.mem_singleton.mp h
            rw [he]
            exact bne_iff_ne.mp hab
        · rw [if_neg hab] at hr2
          exact .inl hr2
    rcases foldl_mem_or (fun r2 : LogRec => r2.oldValue ≠ r2.newValue) _ hstep
      (if ((objKeys newO).length = 0 && (objKeys oldO).length > 0) = true
        then objKeys oldO else objKeys newO) [] r hr with hmem | hp
    · exact absurd hmem (List.not_mem_nil r)
    · exact hp

/-- C10: the diff emits a record for a leaf only when the two formatted
strings differ — every emitted record has distinct oldValue and newValue
strings — and formatting can merge distinct values: documents holding the
number 5 and the string 5, or null and the string null, at the same key
produce an empty diff although the documents differ. -/
theorem claim_C10 :
    (∀ (a b : Value) (p : String) (r : LogRec),
        r ∈ createLogArray a b p → r.oldValue ≠ r.newValue) ∧
    createLogArray (.vObj (.cons "a" (.vNum 5) .nil))
      (.vObj (.cons "a" (.vStr "5") .nil)) "" = [] ∧
    (.vObj (.cons "a" (.vNum 5) .nil) : Value) ≠ .vObj (.cons "a" (.vStr "5") .nil) ∧
    createLogArray (.vObj (.cons "a" .vNull .nil))
      (.vObj (.cons "a" (.vStr "null") .nil)) "" = [] ∧
    (.vObj (.cons "a" .vNull .nil) : Value) ≠ .vObj (.cons "a" (.vStr "null") .nil) :=
  ⟨fun a b p r hr => createLogArrayF_ne _ a b p r hr,
    by decide, by decide, by decide, by decide⟩

theorem claim_C10_witness :
    ((⟨".a", "1", "2"⟩ : LogRec) ∈ createLogArray (.vObj (.cons "a" (.vNum 1) .nil))
        (.vObj (.cons "a" (.vNum 2) .nil)) "") ∧
    (⟨".a", "1", "2"⟩ : LogRec).oldValue ≠ (⟨".a", "1", "2"⟩ : LogRec).newValue :=
  ⟨by decide, claim_C10.1 (.vObj (.cons "a" (.vNum 1) .nil))
    (.vObj (.cons "a" (.vNum 2) .nil)) "" ⟨".a", "1", "2"⟩ (by decide)⟩

/-! ## Diff symmetry on aligned flat objects (claim C9) -/

/-- One step of createLogArray's key fold, named for the symmetry lemmas. -/
def clStep (n : Nat) (oldO newO : Value) (path : String)
    (acc : List LogRec) (k : String) : List LogRec :=
  if (isObjectJS newO && isObjectJS (getProp newO (.str k)) &&
      (hasObjectsAsValues (getProp newO (.str k)) ||
        (isObjectJS oldO && isObjectJS (oku oldO k) &&
          hasObjectsAsValues (oku oldO k)))) = true then
    acc ++ createLogArrayF n (oku oldO k) (getProp newO (.str k)) (path ++ "." ++ k)
  else if (formatLog (oku oldO k) (oku newO k)
      != formatLog (oku newO k) (oku oldO k)) = true then
    acc ++ [⟨path ++ "." ++ k, formatLog (oku oldO k) (oku newO k),
      formatLog (oku newO k) (oku oldO k)⟩]
  else acc

theorem createLogArrayF_succ (n : Nat) (oldO newO : Value) (path : String) :
    createLogArrayF (n+1) oldO newO path =
      (if ((objKeys newO).length = 0 && (objKeys oldO).length > 0) = true
        then objKeys oldO else objKeys newO).foldl (clStep n oldO newO path) [] := by
  unfold createLogArrayF clStep
  rfl

/-- The record with old and new strings exchanged. -/
def swapRec (r : LogRec) : LogRec := ⟨r.path, r.newValue, r.oldValue⟩

theorem clStep_leaf_swap (n m : Nat) (a b : Value) (path : String) (k : String)
    (hfa : isObjectJS (getProp a (.str k)) = false)
    (hfb : isObjectJS (getProp b (.str k)) = false) (acc : List LogRec) :
    clStep n b a path (acc.map swapRec) k = (clStep m a b path acc k).map swapRec := by
  unfold clStep
  have hc1 : ¬((isObjectJS a && isObjectJS (getProp a (.str k)) &&
      (hasObjectsAsValues (getProp a (.str k)) ||
        (isObjectJS b && isObjectJS (oku b k) && hasObjectsAsValues (oku b k)))) = true) := by
    rw [hfa, Bool.and_false, Bool.false_and]
    exact Bool.false_ne_true
  have hc2 : ¬((isObjectJS b && isObjectJS (getProp b (.str k)) &&
      (hasObjectsAsValues (getProp b (.str k)) ||
        (isObjectJS a && isObjectJS (oku a k) && hasObjectsAsValues (oku a k)))) = true) := by
    rw [hfb, Bool.and_false, Bool.false_and]
    exact Bool.false_ne_true
  rw [if_neg hc1, if_neg hc2]
  by_cases heq : formatLog (oku a k) (oku b k) = formatLog (oku b k) (oku a k)
  · rw [heq, bne_self_eq_false, if_neg Bool.false_ne_true, if_neg Bool.false_ne_true]
  · have hne : (formatLog (oku a k) (oku b k) != formatLog (oku b k) (oku a k)) = true :=
      bne_iff_ne.mpr heq
    have hne2 : (formatLog (oku b k) (oku a k) != formatLog (oku a k) (oku b k)) = true :=
      bne_iff_ne.mpr (fun h => heq h.symm)
    rw [if_pos hne2, if_pos hne, List.map_append]
    rfl

/-- C9, amended: the diff is symmetric on documents that expose the same
keys in the same order and hold non-object values at every key — there
the two runs report the same paths with oldValue and newValue exchanged.
In general the iteration keys come from the second document and the
recursion condition inspects the two sides differently, so the reported
path sets differ between the two runs (see the counterexample). -/
theorem claim_C9 (a b : Value) (path : String)
    (hkeys : objKeys a = objKeys b)
    (hleaf : ∀ k ∈ objKeys b, isObjectJS (getProp a (.str k)) = false ∧
      isObjectJS (getProp b (.str k)) = false) :
    createLogArray b a path = (createLogArray a b path).map swapRec ∧
    (createLogArray b a path).map (fun r => r.path)
      = (createLogArray a b path).map (fun r => r.path) := by
  have h1 : createLogArray b a path = (createLogArray a b path).map swapRec := by
    show createLogArrayF (vsize b + vsize a + 1) b a path
      = (createLogArrayF (vsize a + vsize b + 1) a b path).map swapRec
    rw [createLogArrayF_succ, createLogArrayF_succ, hkeys, ite_self]
    have main : ∀ (ks : List String), (∀ k2 ∈ ks, k2 ∈ objKeys b) → ∀ (acc : List LogRec),
        ks.foldl (clStep (vsize b + vsize a) b a path) (acc.map swapRec)
          = (ks.foldl (clStep (vsize a + vsize b) a b path) acc).map swapRec := by
      intro ks
      induction ks with
      | nil => intro _ acc; rfl
      | cons k ks ih =>
        intro hmem acc
        rw [List.foldl_cons, List.foldl_cons,
          clStep_leaf_swap _ _ a b path k (hleaf k (hmem k (by simp))).1
            (hleaf k (hmem k (by simp))).2 acc]
        exact ih (fun k2 h2 => hmem k2 (by simp [h2])) _
    exact main (objKeys b) (fun k2 h => h) []
  refine ⟨h1, ?_⟩
  rw [h1, List.map_map]
  apply List.map_congr_left
  intro r _
  rfl

theorem claim_C9_counterexample :
    createLogArray (.vObj (.cons "x" (.vNum 1) .nil)) (.vObj (.cons "y" (.vNum 2) .nil)) ""
      = [⟨".y", "undefined", "2"⟩] ∧
    createLogArray (.vObj (.cons "y" (.vNum 2) .nil)) (.vObj (.cons "x" (.vNum 1) .nil)) ""
      = [⟨".x", "undefined", "1"⟩] ∧
    (".y" : String) ≠ ".x" := by decide

theorem claim_C9_witness :
    objKeys (.vObj (.cons "k" (.vNum 1) .nil)) = objKeys (.vObj (.cons "k" (.vNum 2) .nil)) ∧
    createLogArray (.vObj (.cons "k" (.vNum 2) .nil)) (.vObj (.cons "k" (.vNum 1) .nil)) ""
      = (createLogArray (.vObj (.cons "k" (.vNum 1) .nil))
          (.vObj (.cons "k" (.vNum 2) .nil)) "").map swapRec :=
  ⟨by decide, (claim_C9 (.vObj (.cons "k" (.vNum 1) .nil)) (.vObj (.cons "k" (.vNum 2) .nil))
    "" (by decide) (by decide)).1⟩
